import Mathlib

/-!
Verification of the Sigma- compiler front-end
(`src/analisadorsintatico/analisador_sintatico_gui.py`).

The Python module's core — the `Lexer` (character scanner with line/column
tracking) and the recursive-descent `Parser` (one procedure per grammar
non-terminal, building a concrete syntax tree) — is embedded shallowly
below.  Pure data classes become structures, the lexer's mutable cursor
becomes explicit recursion over the remaining character list, and the
parser's mutable token index becomes an explicit cursor `Nat` threaded
through the parse functions.  The parser's recursion (one Python method per
non-terminal, mutually recursive) is embedded as a single function over an
inductive tag of non-terminals, structurally recursive on a fuel argument;
a fuel bound linear in the token count is proved sufficient below.

Python's `str.isdigit`/`isalpha`/`isalnum` are Unicode-aware; the embedding
uses Lean's ASCII `Char.isDigit`/`Char.isAlpha`/`Char.isAlphanum`, which
agree with Python on all ASCII source text (the language's own lexemes are
all ASCII).
-/

/-- The `TokenType` enumeration of the Python module (class `TokenType`). -/
inductive TokenType where
  | NUMBER | IDENTIFIER | STRING
  | PROGRAM | VAR | INTEGER | BOOLEAN | BEGIN | END
  | READ | READLN | WRITE | WRITELN | IF | THEN | ELSE | WHILE | DO
  | PLUS | MINUS | MULTIPLY | DIVIDE
  | ASSIGN | EQUAL | NOT_EQUAL | LESS_THAN | LESS_EQUAL | GREATER_THAN | GREATER_EQUAL
  | SEMICOLON | COMMA | COLON | LEFT_PAREN | RIGHT_PAREN | DOT
  | NEWLINE | EOF
  deriving DecidableEq, Repr

/-- The `.value` string of each `TokenType` member in the Python enum. -/
def TokenType.value : TokenType → String
  | .NUMBER => "num"
  | .IDENTIFIER => "id"
  | .STRING => "str"
  | .PROGRAM => "program"
  | .VAR => "var"
  | .INTEGER => "integer"
  | .BOOLEAN => "boolean"
  | .BEGIN => "begin"
  | .END => "end"
  | .READ => "read"
  | .READLN => "readln"
  | .WRITE => "write"
  | .WRITELN => "writeln"
  | .IF => "if"
  | .THEN => "then"
  | .ELSE => "else"
  | .WHILE => "while"
  | .DO => "do"
  | .PLUS => "+"
  | .MINUS => "-"
  | .MULTIPLY => "*"
  | .DIVIDE => "/"
  | .ASSIGN => ":="
  | .EQUAL => "="
  | .NOT_EQUAL => "<>"
  | .LESS_THAN => "<"
  | .LESS_EQUAL => "<="
  | .GREATER_THAN => ">"
  | .GREATER_EQUAL => ">="
  | .SEMICOLON => ";"
  | .COMMA => ","
  | .COLON => ":"
  | .LEFT_PAREN => "("
  | .RIGHT_PAREN => ")"
  | .DOT => "."
  | .NEWLINE => "NEWLINE"
  | .EOF => "EOF"

/-- Python class `Token`: type, literal text, and 1-based source position
(`line`/`column` are Python ints, so `Int` here: the parser's synthetic end
marker carries position `-1, -1`). -/
structure Token where
  type : TokenType
  value : String
  line : Int
  column : Int
  deriving DecidableEq, Repr

/-- Python class `LexicalError` (an exception carrying message, line, column). -/
structure LexicalError where
  message : String
  line : Int
  column : Int
  deriving DecidableEq, Repr

/-- Python class `SyntaxError` (an exception carrying a message and the
offending token, if any). -/
structure SyntaxError where
  message : String
  token : Option Token
  deriving DecidableEq, Repr

/-- The exception text built by `SyntaxError.__init__` via `super().__init__`:
with a token it is
`f"Erro sintático: {message} (Token: {token.type.value}, Linha: {token.line})"`. -/
def SyntaxError.render (e : SyntaxError) : String :=
  match e.token with
  | some t =>
      "Erro sintático: " ++ e.message ++ " (Token: " ++ t.type.value ++
        ", Linha: " ++ toString t.line ++ ")"
  | none => "Erro sintático: " ++ e.message

/-- Python class `TreeNode`: a syntax-tree node with a grammar symbol, an
optional token (present exactly on terminal leaves) and an ordered list of
children. -/
inductive TreeNode where
  | node (symbol : String) (token : Option Token) (children : List TreeNode)

/-- The `symbol` field of a `TreeNode`. -/
def TreeNode.symbol : TreeNode → String
  | .node s _ _ => s

/-- The `token` field of a `TreeNode`. -/
def TreeNode.tokn : TreeNode → Option Token
  | .node _ t _ => t

/-- The `children` field of a `TreeNode`. -/
def TreeNode.children : TreeNode → List TreeNode
  | .node _ _ cs => cs

/-- The symbols of a node's children, in order. -/
def TreeNode.childSymbols (t : TreeNode) : List String :=
  t.children.map TreeNode.symbol

/-- All tokens carried by the (terminal) nodes of a tree, in tree order. -/
def tokensOf : TreeNode → List Token
  | .node _ t cs =>
    (match t with | some tok => [tok] | none => []) ++
      (cs.attach.map (fun c => tokensOf c.1)).flatten
decreasing_by
  obtain ⟨v, hv⟩ := c
  have := List.sizeOf_lt_of_mem hv
  simp only [TreeNode.node.sizeOf_spec]
  omega

@[simp] theorem tokensOf_node (s : String) (t : Option Token) (cs : List TreeNode) :
    tokensOf (.node s t cs) =
      (match t with | some tok => [tok] | none => []) ++ (cs.map tokensOf).flatten := by
  rw [tokensOf.eq_def]
  simp [List.attach, List.attachWith, List.map_pmap]

/-! ## Lexer

Python class `Lexer`.  Its mutable fields `source`, `tokens`, `current`,
`line`, `column` become a structure; `tokenize` re-initialises all of them
except `source` before scanning, so the scan itself is a recursion over the
remaining characters of `source` carrying `line`, `column` and the token
accumulator. -/

/-- ASCII lower-casing of a string, character by character (Python's
`str.lower()` restricted to ASCII, which covers every keyword spelling). -/
def str_lower (s : String) : String :=
  ⟨s.data.map Char.toLower⟩

/-- The keyword dictionary `Lexer.keywords` as an association list (keys are
lower-case; lookup is done on the lower-cased lexeme). -/
def keyword_list : List (String × TokenType) :=
  [("program", .PROGRAM), ("var", .VAR), ("integer", .INTEGER),
   ("boolean", .BOOLEAN), ("begin", .BEGIN), ("end", .END),
   ("read", .READ), ("readln", .READLN), ("write", .WRITE),
   ("writeln", .WRITELN), ("if", .IF), ("then", .THEN), ("else", .ELSE),
   ("while", .WHILE), ("do", .DO)]

/-- `self.keywords.get(lower_ident, ...)` lookup. -/
def keywords (s : String) : Option TokenType :=
  keyword_list.lookup s

/-- The dictionary `Lexer.single_char_tokens` as an association list. -/
def single_char_list : List (Char × TokenType) :=
  [('+', .PLUS), ('-', .MINUS), ('*', .MULTIPLY), ('/', .DIVIDE),
   ('=', .EQUAL), ('<', .LESS_THAN), ('>', .GREATER_THAN),
   (';', .SEMICOLON), (',', .COMMA), (':', .COLON),
   ('(', .LEFT_PAREN), (')', .RIGHT_PAREN), ('.', .DOT)]

/-- `self.single_char_tokens` lookup. -/
def single_char_tokens (c : Char) : Option TokenType :=
  single_char_list.lookup c

/-- The dictionary `Lexer.double_char_tokens` as an association list. -/
def double_char_list : List (String × TokenType) :=
  [(":=", .ASSIGN), ("<=", .LESS_EQUAL), (">=", .GREATER_EQUAL),
   ("<>", .NOT_EQUAL)]

/-- `self.double_char_tokens` lookup. -/
def double_char_tokens (s : String) : Option TokenType :=
  double_char_list.lookup s

/-- `Lexer.scan_string`, entered after the opening quote was consumed: scans
up to the closing quote.  Returns the literal's characters, the line and
column after the closing quote, and the remaining input.  On a newline the
Python method increments `line` and resets `column` itself and then calls
`advance()`, which increments `line` and resets `column` again — so each
embedded newline advances `line` by 2 (this double increment is kept
faithfully; see the C3 analysis). -/
def scan_string : List Char → Int → Int →
    Except LexicalError (List Char × Int × Int × List Char)
  | [], line, column => .error ⟨"String não terminada", line, column⟩
  | c :: rest, line, column =>
    if c = '"' then
      -- closing quote consumed by `advance()`: column + 1
      .ok ([], line, column + 1, rest)
    else if c = '\n' then
      match scan_string rest (line + 2) 1 with
      | .ok (v, l, co, r) => .ok (c :: v, l, co, r)
      | .error e => .error e
    else
      match scan_string rest line (column + 1) with
      | .ok (v, l, co, r) => .ok (c :: v, l, co, r)
      | .error e => .error e

/-- `Lexer.scan_number`: consumes the maximal run of digits starting at the
current character.  Returns the digits, the line and column reached, and
the remaining input. -/
def scan_number : List Char → Int → Int → (List Char × Int × Int × List Char)
  | [], line, column => ([], line, column, [])
  | c :: rest, line, column =>
    if c.isDigit then
      let r := scan_number rest line (column + 1)
      (c :: r.1, r.2.1, r.2.2.1, r.2.2.2)
    else ([], line, column, c :: rest)

/-- `Lexer.scan_identifier`: consumes the maximal run of alphanumeric
characters and underscores. -/
def scan_identifier : List Char → Int → Int → (List Char × Int × Int × List Char)
  | [], line, column => ([], line, column, [])
  | c :: rest, line, column =>
    if c.isAlphanum ∨ c = '_' then
      let r := scan_identifier rest line (column + 1)
      (c :: r.1, r.2.1, r.2.2.1, r.2.2.2)
    else ([], line, column, c :: rest)

/-- The comment-skipping loop inside `Lexer.tokenize` (case 3), entered
after `{` was consumed: skips to the closing `}`.  Returns the line, the
column after the `}`, and the remaining input. -/
def skip_comment : List Char → Int → Int → Except LexicalError (Int × Int × List Char)
  | [], line, column => .error ⟨"Comentário não terminado", line, column⟩
  | c :: rest, line, column =>
    if c = '}' then .ok (line, column + 1, rest)
    else if c = '\n' then skip_comment rest (line + 1) 1
    else skip_comment rest line (column + 1)

theorem scan_string_rest_lt {l : List Char} {line column : Int}
    {v : List Char} {l2 c2 : Int} {r : List Char}
    (h : scan_string l line column = .ok (v, l2, c2, r)) : r.length < l.length := by
  induction l generalizing line column v with
  | nil => simp [scan_string] at h
  | cons c rest ih =>
    simp only [scan_string] at h
    split at h
    · cases h
      simp
    · split at h
      · cases h3 : scan_string rest (line + 2) 1 with
        | ok x =>
          rw [h3] at h
          obtain ⟨v', l', c', r'⟩ := x
          cases h
          exact Nat.lt_succ_of_lt (ih h3)
        | error e => rw [h3] at h; cases h
      · cases h3 : scan_string rest line (column + 1) with
        | ok x =>
          rw [h3] at h
          obtain ⟨v', l', c', r'⟩ := x
          cases h
          exact Nat.lt_succ_of_lt (ih h3)
        | error e => rw [h3] at h; cases h

theorem scan_number_rest_le (l : List Char) (line column : Int) :
    (scan_number l line column).2.2.2.length ≤ l.length := by
  induction l generalizing line column with
  | nil => simp [scan_number]
  | cons c rest ih =>
    simp only [scan_number]
    split
    · simpa using Nat.le_succ_of_le (ih line (column + 1))
    · simp

theorem scan_identifier_rest_le (l : List Char) (line column : Int) :
    (scan_identifier l line column).2.2.2.length ≤ l.length := by
  induction l generalizing line column with
  | nil => simp [scan_identifier]
  | cons c rest ih =>
    simp only [scan_identifier]
    split
    · simpa using Nat.le_succ_of_le (ih line (column + 1))
    · simp

theorem skip_comment_rest_lt {l : List Char} {line column : Int}
    {l2 c2 : Int} {r : List Char}
    (h : skip_comment l line column = .ok (l2, c2, r)) : r.length < l.length := by
  induction l generalizing line column with
  | nil => simp [skip_comment] at h
  | cons c rest ih =>
    simp only [skip_comment] at h
    split at h
    · cases h
      simp
    · split at h
      · exact Nat.lt_succ_of_lt (ih h)
      · exact Nat.lt_succ_of_lt (ih h)

/-- The main loop of `Lexer.tokenize`: one iteration per branch of the
Python `while not self.is_at_end()` loop, carrying the remaining source
characters, the current line and column, and the accumulated token list.
Tokens are created exactly as `add_token` does: at the current line, with
column `self.column - len(value)`.

The loop consumes at least one character per iteration, so it is embedded
with a fuel argument (structural recursion) and run with fuel
`length + 1`, which never runs out; the fuel-0 branch is unreachable
then and only exists to make the function total. -/
def tokenize_loop : Nat → List Char → Int → Int → List Token →
    Except LexicalError (List Token)
  | 0, _, _, _, _ => .error ⟨"fuel", 0, 0⟩
  | fuel + 1, src, line, column, acc =>
    match src with
    | [] =>
      -- add_token(TokenType.EOF, '')
      .ok (acc ++ [⟨.EOF, "", line, column⟩])
    | ch :: rest =>
      -- 1. whitespace
      if ch = ' ' ∨ ch = '\t' ∨ ch = '\r' then
        tokenize_loop fuel rest line (column + 1) acc
      -- 2. newline: add_token(NEWLINE, '\\n') before advancing
      else if ch = '\n' then
        tokenize_loop fuel rest (line + 1) 1
          (acc ++ [⟨.NEWLINE, "\\n", line, column - 2⟩])
      -- 3. comment
      else if ch = '{' then
        match skip_comment rest line (column + 1) with
        | .error e => .error e
        | .ok (l, co, r) => tokenize_loop fuel r l co acc
      -- 4. string literal
      else if ch = '"' then
        match scan_string rest line (column + 1) with
        | .error e => .error e
        | .ok (v, l, co, r) =>
          let s : String := ⟨v⟩
          tokenize_loop fuel r l co (acc ++ [⟨.STRING, s, l, co - s.length⟩])
      -- 5. number
      else if ch.isDigit then
        let res := scan_number (ch :: rest) line column
        let s : String := ⟨res.1⟩
        tokenize_loop fuel res.2.2.2 res.2.1 res.2.2.1
          (acc ++ [⟨.NUMBER, s, res.2.1, res.2.2.1 - s.length⟩])
      -- 6. identifier / keyword
      else if ch.isAlpha ∨ ch = '_' then
        let res := scan_identifier (ch :: rest) line column
        let s : String := ⟨res.1⟩
        let tt := (keywords (str_lower s)).getD .IDENTIFIER
        tokenize_loop fuel res.2.2.2 res.2.1 res.2.2.1
          (acc ++ [⟨tt, s, res.2.1, res.2.2.1 - s.length⟩])
      else
        -- 7. two-character operators (checked before single-character ones)
        match rest with
        | c2 :: rest2 =>
          match double_char_tokens ⟨[ch, c2]⟩ with
          | some tt =>
            tokenize_loop fuel rest2 line (column + 2)
              (acc ++ [⟨tt, ⟨[ch, c2]⟩, line, column⟩])
          | none =>
            -- 8. single-character operators
            match single_char_tokens ch with
            | some tt =>
              tokenize_loop fuel (c2 :: rest2) line (column + 1)
                (acc ++ [⟨tt, ⟨[ch]⟩, line, column⟩])
            | none =>
              -- 9. unknown character: advance() then raise at column - 1
              .error ⟨"Caractere desconhecido: \'" ++ ⟨[ch]⟩ ++ "\'", line, column⟩
        | [] =>
          match single_char_tokens ch with
          | some tt =>
            tokenize_loop fuel [] line (column + 1)
              (acc ++ [⟨tt, ⟨[ch]⟩, line, column⟩])
          | none =>
            .error ⟨"Caractere desconhecido: \'" ++ ⟨[ch]⟩ ++ "\'", line, column⟩

/-- Python class `Lexer`: the instance fields set by `__init__`. -/
structure Lexer where
  source : String
  tokens : List Token := []
  current : Nat := 0
  line : Int := 1
  column : Int := 1

/-- `Lexer.tokenize`: re-initialises `tokens`, `current`, `line`, `column`
and scans `source` from the start — so nothing but `source` influences the
result. -/
def Lexer.tokenize (lx : Lexer) : Except LexicalError (List Token) :=
  tokenize_loop (lx.source.data.length + 1) lx.source.data 1 1 []

/-- Tokenizing a source string with a fresh `Lexer` instance. -/
def tokenizeStr (s : String) : Except LexicalError (List Token) :=
  Lexer.tokenize { source := s }

/-! ## Parser

Python class `Parser`.  `__init__` filters NEWLINE/EOF tokens out of the
lexer's output and appends one synthetic end marker
`Token(TokenType.EOF, '$', -1, -1)`; the mutable index `self.current`
becomes a cursor `Nat` passed to and returned by each parse function.

Each Python method `parse_X` is one arm of a single function `parseNT`
over a tag type `NT` (the non-terminals, plus one tag for each of the two
`while` loops inside `parse_E_expr` / `parse_E_term`, whose Python-local
`left` accumulator becomes the tag's argument).  `parseNT` is structurally
recursive on a fuel argument; `PRes.out` reports fuel exhaustion and is
proved unreachable for fuel linear in the token count. -/

/-- The synthetic end marker appended by `Parser.__init__`:
`Token(TokenType.EOF, '$', -1, -1)`. -/
def eof_marker : Token := ⟨.EOF, "$", -1, -1⟩

/-- `Parser.__init__`: the filtered token list with the end marker appended. -/
def Parser.init (tokens : List Token) : List Token :=
  (tokens.filter fun t => t.type ≠ TokenType.NEWLINE ∧ t.type ≠ TokenType.EOF) ++
    [eof_marker]

/-- `Parser.peek`: the token at the cursor, or the last token when the
cursor is beyond the end.  (Python indexes `self.tokens[-1]`, which assumes
a non-empty list — always true for lists built by `Parser.__init__`; on an
empty list the embedding answers the end marker.) -/
def Parser.peekT (ts : List Token) (c : Nat) : Token :=
  if h : c < ts.length then ts.get ⟨c, h⟩ else ts.getLastD eof_marker

/-- The cursor after `Parser.advance`: it moves only while strictly before
the last token. -/
def Parser.advT (ts : List Token) (c : Nat) : Nat :=
  if c < ts.length - 1 then c + 1 else c

/-- Result of a parse step: a value plus the new cursor, a raised
`SyntaxError`, or fuel exhaustion (`out`, an artifact of the embedding). -/
inductive PRes (α : Type) where
  | ok (a : α) (c : Nat)
  | err (e : SyntaxError)
  | out

/-- Sequencing of parse steps (the exception propagation of the Python
methods). -/
def pbind {α β : Type} (r : PRes α) (f : α → Nat → PRes β) : PRes β :=
  match r with
  | .ok a c => f a c
  | .err e => .err e
  | .out => .out

/-- The parsed value of a result, if any. -/
def PRes.res {α : Type} : PRes α → Option α
  | .ok a _ => some a
  | _ => none

/-- The cursor of a successful result, if any. -/
def PRes.cursor {α : Type} : PRes α → Option Nat
  | .ok _ c => some c
  | _ => none

/-- `Parser.expect`: return (and consume) the current token if its type
matches, otherwise raise `SyntaxError` with the expected and found kinds in
the message and the found token attached. -/
def expect (ts : List Token) (c : Nat) (token_type : TokenType) : PRes Token :=
  let token := Parser.peekT ts c
  if token.type = token_type then
    .ok token (Parser.advT ts c)
  else
    .err ⟨"Esperado '" ++ token_type.value ++ "', encontrado '" ++
          token.type.value ++ "'", some token⟩

/-- The non-terminal tags: one per `parse_X` method of the Python parser,
plus `EexprLoop`/`EtermLoop` for the two operator `while` loops inside
`parse_E_expr`/`parse_E_term` (their Python-local `left` node is the tag's
argument). -/
inductive NT where
  | S | D | V | T | I | L | C | A | R | W | F | G | M | N | P
  | E | Eexpr | Eterm | Efactor | B
  | EexprLoop (left : TreeNode)
  | EtermLoop (left : TreeNode)

/-- The recursive-descent parser: arm `.X` is Python's `Parser.parse_X`,
translated line by line (`pbind` sequences the statements of the method
body; each `let c := ...` mirrors a `self.advance()`). -/
def parseNT : Nat → NT → List Token → Nat → PRes TreeNode
  | 0, _, _, _ => .out
  | fuel + 1, nt, ts, c =>
    match nt with
    | .S =>
      -- S -> program id ; [D] begin L end .
      pbind (expect ts c .PROGRAM) fun prog_token c =>
      pbind (expect ts c .IDENTIFIER) fun id_token c =>
      pbind (expect ts c .SEMICOLON) fun semi_token c =>
      pbind (if (Parser.peekT ts c).type = TokenType.VAR then
               pbind (parseNT fuel .D ts c) fun d c => .ok [d] c
             else .ok [] c) fun dOpt c =>
      pbind (expect ts c .BEGIN) fun begin_token c =>
      pbind (parseNT fuel .L ts c) fun lNode c =>
      pbind (expect ts c .END) fun end_token c =>
      pbind (expect ts c .DOT) fun dot_token c =>
      .ok (.node "S" none
            ([.node "program" (some prog_token) [],
              .node "id" (some id_token) [],
              .node ";" (some semi_token) []] ++ dOpt ++
             [.node "begin" (some begin_token) [],
              lNode,
              .node "end" (some end_token) [],
              .node "." (some dot_token) []])) c
    | .D =>
      -- D -> var V
      pbind (expect ts c .VAR) fun var_token c =>
      pbind (parseNT fuel .V ts c) fun v c =>
      .ok (.node "D" none [.node "var" (some var_token) [], v]) c
    | .V =>
      -- V -> I : T ; [V]
      pbind (parseNT fuel .I ts c) fun i c =>
      pbind (expect ts c .COLON) fun colon_token c =>
      pbind (parseNT fuel .T ts c) fun t c =>
      pbind (expect ts c .SEMICOLON) fun semi_token c =>
      pbind (if (Parser.peekT ts c).type = TokenType.IDENTIFIER then
               pbind (parseNT fuel .V ts c) fun v2 c => .ok [v2] c
             else .ok [] c) fun tail c =>
      .ok (.node "V" none
            ([i, .node ":" (some colon_token) [], t,
              .node ";" (some semi_token) []] ++ tail)) c
    | .T =>
      -- T -> integer | boolean
      let token := Parser.peekT ts c
      if token.type = TokenType.INTEGER then
        .ok (.node "T" none [.node "integer" (some token) []]) (Parser.advT ts c)
      else if token.type = TokenType.BOOLEAN then
        .ok (.node "T" none [.node "boolean" (some token) []]) (Parser.advT ts c)
      else .err ⟨"Esperado tipo (integer ou boolean)", some token⟩
    | .I =>
      -- I -> id [, I]
      pbind (expect ts c .IDENTIFIER) fun id_token c =>
      pbind (if (Parser.peekT ts c).type = TokenType.COMMA then
               let comma_token := Parser.peekT ts c
               let c := Parser.advT ts c
               pbind (parseNT fuel .I ts c) fun i2 c =>
               .ok [.node "," (some comma_token) [], i2] c
             else .ok [] c) fun tail c =>
      .ok (.node "I" none ([.node "id" (some id_token) []] ++ tail)) c
    | .L =>
      -- L -> C [; [L]]   (the tail only when the next token is not end/EOF)
      pbind (parseNT fuel .C ts c) fun cNode c =>
      pbind (if (Parser.peekT ts c).type = TokenType.SEMICOLON then
               let semi_token := Parser.peekT ts c
               let c := Parser.advT ts c
               if (Parser.peekT ts c).type ≠ TokenType.END ∧
                  (Parser.peekT ts c).type ≠ TokenType.EOF then
                 pbind (parseNT fuel .L ts c) fun l2 c =>
                 .ok [.node ";" (some semi_token) [], l2] c
               else .ok [.node ";" (some semi_token) []] c
             else .ok [] c) fun tail c =>
      .ok (.node "L" none ([cNode] ++ tail)) c
    | .C =>
      -- C -> A | R | W | M | N | P, decided by the current token
      let token := Parser.peekT ts c
      if token.type = TokenType.IDENTIFIER then
        pbind (parseNT fuel .A ts c) fun a c => .ok (.node "C" none [a]) c
      else if token.type = TokenType.READ ∨ token.type = TokenType.READLN then
        pbind (parseNT fuel .R ts c) fun r c => .ok (.node "C" none [r]) c
      else if token.type = TokenType.WRITE ∨ token.type = TokenType.WRITELN then
        pbind (parseNT fuel .W ts c) fun w c => .ok (.node "C" none [w]) c
      else if token.type = TokenType.BEGIN then
        pbind (parseNT fuel .M ts c) fun m c => .ok (.node "C" none [m]) c
      else if token.type = TokenType.IF then
        pbind (parseNT fuel .N ts c) fun n c => .ok (.node "C" none [n]) c
      else if token.type = TokenType.WHILE then
        pbind (parseNT fuel .P ts c) fun p c => .ok (.node "C" none [p]) c
      else .err ⟨"Comando inválido", some token⟩
    | .A =>
      -- A -> id := E
      pbind (expect ts c .IDENTIFIER) fun id_token c =>
      pbind (expect ts c .ASSIGN) fun assign_token c =>
      pbind (parseNT fuel .E ts c) fun e c =>
      .ok (.node "A" none
            [.node "id" (some id_token) [], .node ":=" (some assign_token) [], e]) c
    | .R =>
      -- R -> read ( I ) | readln [( I )]
      let token := Parser.peekT ts c
      if token.type = TokenType.READ then
        let c := Parser.advT ts c
        pbind (expect ts c .LEFT_PAREN) fun lparen_token c =>
        pbind (parseNT fuel .I ts c) fun i c =>
        pbind (expect ts c .RIGHT_PAREN) fun rparen_token c =>
        .ok (.node "R" none
              [.node "read" (some token) [], .node "(" (some lparen_token) [],
               i, .node ")" (some rparen_token) []]) c
      else if token.type = TokenType.READLN then
        let c := Parser.advT ts c
        if (Parser.peekT ts c).type = TokenType.LEFT_PAREN then
          let lparen_token := Parser.peekT ts c
          let c := Parser.advT ts c
          pbind (parseNT fuel .I ts c) fun i c =>
          pbind (expect ts c .RIGHT_PAREN) fun rparen_token c =>
          .ok (.node "R" none
                [.node "readln" (some token) [], .node "(" (some lparen_token) [],
                 i, .node ")" (some rparen_token) []]) c
        else .ok (.node "R" none [.node "readln" (some token) []]) c
      else .ok (.node "R" none []) c
    | .W =>
      -- W -> write ( F ) | writeln [( F )]
      let token := Parser.peekT ts c
      if token.type = TokenType.WRITE then
        let c := Parser.advT ts c
        pbind (expect ts c .LEFT_PAREN) fun lparen_token c =>
        pbind (parseNT fuel .F ts c) fun f c =>
        pbind (expect ts c .RIGHT_PAREN) fun rparen_token c =>
        .ok (.node "W" none
              [.node "write" (some token) [], .node "(" (some lparen_token) [],
               f, .node ")" (some rparen_token) []]) c
      else if token.type = TokenType.WRITELN then
        let c := Parser.advT ts c
        if (Parser.peekT ts c).type = TokenType.LEFT_PAREN then
          let lparen_token := Parser.peekT ts c
          let c := Parser.advT ts c
          pbind (parseNT fuel .F ts c) fun f c =>
          pbind (expect ts c .RIGHT_PAREN) fun rparen_token c =>
          .ok (.node "W" none
                [.node "writeln" (some token) [], .node "(" (some lparen_token) [],
                 f, .node ")" (some rparen_token) []]) c
        else .ok (.node "W" none [.node "writeln" (some token) []]) c
      else .ok (.node "W" none []) c
    | .F =>
      -- F -> G [, F]
      pbind (parseNT fuel .G ts c) fun g c =>
      pbind (if (Parser.peekT ts c).type = TokenType.COMMA then
               let comma_token := Parser.peekT ts c
               let c := Parser.advT ts c
               pbind (parseNT fuel .F ts c) fun f2 c =>
               .ok [.node "," (some comma_token) [], f2] c
             else .ok [] c) fun tail c =>
      .ok (.node "F" none ([g] ++ tail)) c
    | .G =>
      -- G -> str | E
      if (Parser.peekT ts c).type = TokenType.STRING then
        let str_token := Parser.peekT ts c
        .ok (.node "G" none [.node "str" (some str_token) []]) (Parser.advT ts c)
      else
        pbind (parseNT fuel .E ts c) fun e c => .ok (.node "G" none [e]) c
    | .M =>
      -- M -> begin L end
      pbind (expect ts c .BEGIN) fun begin_token c =>
      pbind (parseNT fuel .L ts c) fun l c =>
      pbind (expect ts c .END) fun end_token c =>
      .ok (.node "M" none
            [.node "begin" (some begin_token) [], l,
             .node "end" (some end_token) []]) c
    | .N =>
      -- N -> if B then C [else C]
      pbind (expect ts c .IF) fun if_token c =>
      pbind (parseNT fuel .B ts c) fun b c =>
      pbind (expect ts c .THEN) fun then_token c =>
      pbind (parseNT fuel .C ts c) fun c1 c =>
      pbind (if (Parser.peekT ts c).type = TokenType.ELSE then
               let else_token := Parser.peekT ts c
               let c := Parser.advT ts c
               pbind (parseNT fuel .C ts c) fun c2 c =>
               .ok [.node "else" (some else_token) [], c2] c
             else .ok [] c) fun tail c =>
      .ok (.node "N" none
            ([.node "if" (some if_token) [], b,
              .node "then" (some then_token) [], c1] ++ tail)) c
    | .P =>
      -- P -> while B do C
      pbind (expect ts c .WHILE) fun while_token c =>
      pbind (parseNT fuel .B ts c) fun b c =>
      pbind (expect ts c .DO) fun do_token c =>
      pbind (parseNT fuel .C ts c) fun body c =>
      .ok (.node "P" none
            [.node "while" (some while_token) [], b,
             .node "do" (some do_token) [], body]) c
    | .E =>
      -- parse_E delegates to parse_E_expr
      parseNT fuel .Eexpr ts c
    | .Eexpr =>
      -- parse_E_expr: term, then the (+|-) while loop, wrapped in a node "E"
      pbind (parseNT fuel .Eterm ts c) fun left c =>
      pbind (parseNT fuel (.EexprLoop left) ts c) fun left c =>
      .ok (.node "E" none [left]) c
    | .EexprLoop left =>
      -- while peek in [+, -]: advance; right := term; left := E(left, op, right)
      if (Parser.peekT ts c).type = TokenType.PLUS ∨
         (Parser.peekT ts c).type = TokenType.MINUS then
        let op_token := Parser.peekT ts c
        let c := Parser.advT ts c
        pbind (parseNT fuel .Eterm ts c) fun right c =>
        parseNT fuel
          (.EexprLoop (.node "E" none
            [left, .node op_token.type.value (some op_token) [], right])) ts c
      else .ok left c
    | .Eterm =>
      -- parse_E_term: factor, then the (*|/) while loop (no wrapping node)
      pbind (parseNT fuel .Efactor ts c) fun left c =>
      parseNT fuel (.EtermLoop left) ts c
    | .EtermLoop left =>
      if (Parser.peekT ts c).type = TokenType.MULTIPLY ∨
         (Parser.peekT ts c).type = TokenType.DIVIDE then
        let op_token := Parser.peekT ts c
        let c := Parser.advT ts c
        pbind (parseNT fuel .Efactor ts c) fun right c =>
        parseNT fuel
          (.EtermLoop (.node "E" none
            [left, .node op_token.type.value (some op_token) [], right])) ts c
      else .ok left c
    | .Efactor =>
      -- parse_E_factor: - factor | ( E_expr ) | id | num
      let token := Parser.peekT ts c
      if token.type = TokenType.MINUS then
        let c := Parser.advT ts c
        pbind (parseNT fuel .Efactor ts c) fun sub c =>
        .ok (.node "E" none [.node "-" (some token) [], sub]) c
      else if token.type = TokenType.LEFT_PAREN then
        let c := Parser.advT ts c
        pbind (parseNT fuel .Eexpr ts c) fun e c =>
        pbind (expect ts c .RIGHT_PAREN) fun _ c =>
        .ok e c
      else if token.type = TokenType.IDENTIFIER then
        .ok (.node "id" (some token) []) (Parser.advT ts c)
      else if token.type = TokenType.NUMBER then
        .ok (.node "num" (some token) []) (Parser.advT ts c)
      else .err ⟨"Esperado expressão", some token⟩
    | .B =>
      -- B -> E [relop E]
      pbind (parseNT fuel .E ts c) fun left c =>
      let token := Parser.peekT ts c
      if token.type = TokenType.LESS_THAN ∨ token.type = TokenType.LESS_EQUAL ∨
         token.type = TokenType.GREATER_THAN ∨ token.type = TokenType.GREATER_EQUAL ∨
         token.type = TokenType.EQUAL ∨ token.type = TokenType.NOT_EQUAL then
        let c := Parser.advT ts c
        pbind (parseNT fuel .E ts c) fun right c =>
        .ok (.node "B" none
              [left, .node token.type.value (some token) [], right]) c
      else .ok (.node "B" none [left]) c

/-- `Parser.parse_S` (method wrapper over `parseNT`). -/
def parse_S (fuel : Nat) (ts : List Token) (c : Nat) : PRes TreeNode :=
  parseNT fuel .S ts c

/-- `Parser.parse_E` (method wrapper over `parseNT`). -/
def parse_E (fuel : Nat) (ts : List Token) (c : Nat) : PRes TreeNode :=
  parseNT fuel .E ts c

/-- `Parser.parse`: run `parse_S` from cursor 0, then require the remaining
input to be exactly the end marker. -/
def Parser.parse (fuel : Nat) (ts : List Token) : PRes TreeNode :=
  pbind (parse_S fuel ts 0) fun tree c =>
  if (Parser.peekT ts c).type = TokenType.EOF then .ok tree c
  else .err ⟨"Esperado fim do programa", some (Parser.peekT ts c)⟩

/-! ## Parser invariants

Helper lemmas about the cursor primitives, then three inductions over
`parseNT`: cursor monotonicity/bounds, a sufficient fuel bound, and the
origin of every leaf token. -/

/-- Token lists ending in an end-of-input marker — every list built by
`Parser.init` has this shape. -/
def EndsEOF (ts : List Token) : Prop :=
  ∃ pre t, ts = pre ++ [t] ∧ t.type = TokenType.EOF

theorem endsEOF_init (raw : List Token) : EndsEOF (Parser.init raw) :=
  ⟨_, eof_marker, rfl, rfl⟩

theorem init_length_pos (raw : List Token) : 0 < (Parser.init raw).length := by
  simp [Parser.init]

theorem advT_le (ts : List Token) (c : Nat) : c ≤ Parser.advT ts c := by
  unfold Parser.advT; split <;> omega

theorem advT_lt_length {ts : List Token} {c : Nat} (h : c < ts.length) :
    Parser.advT ts c < ts.length := by
  unfold Parser.advT; split <;> omega

theorem advT_eq {ts : List Token} {c : Nat} (h : c < ts.length - 1) :
    Parser.advT ts c = c + 1 := by
  unfold Parser.advT; split <;> omega

/-- If the token under the cursor is not the end marker, the cursor is
strictly before the last position (so `advance` really moves). -/
theorem get_append_last (pre : List Token) (t : Token)
    (hp : pre.length < (pre ++ [t]).length) :
    (pre ++ [t]).get ⟨pre.length, hp⟩ = t := by
  induction pre with
  | nil => rfl
  | cons x xs ih => exact ih (by simp)

theorem lt_of_peek_ne_eof {ts : List Token} {c : Nat} (hE : EndsEOF ts)
    (h : (Parser.peekT ts c).type ≠ TokenType.EOF) : c < ts.length - 1 := by
  obtain ⟨pre, t, rfl, ht⟩ := hE
  by_contra hc
  push_neg at hc
  apply h
  unfold Parser.peekT
  split
  · rename_i hlt
    have hce : c = pre.length := by
      simp only [List.length_append, List.length_singleton] at hlt hc
      omega
    subst hce
    rw [get_append_last]
    exact ht
  · rw [List.getLastD_eq_getLast?, List.getLast?_append]
    simpa using ht

theorem peekT_mem_of_ne_eof {ts : List Token} {c : Nat}
    (h : (Parser.peekT ts c).type ≠ TokenType.EOF) : Parser.peekT ts c ∈ ts := by
  cases ts with
  | nil =>
    exfalso
    apply h
    simp [Parser.peekT, eof_marker]
  | cons x xs =>
    unfold Parser.peekT
    split
    · exact List.get_mem _ _ _
    · rw [List.getLastD_eq_getLast?, List.getLast?_eq_getLast (x :: xs) (by simp)]
      simp only [Option.getD_some]
      exact List.getLast_mem _

/-- A cursor step that is monotone and stays inside the token list. -/
def StepBound (c c' len : Nat) : Prop :=
  c ≤ c' ∧ (c < len → c' < len)

theorem StepBound.rfl {c len : Nat} : StepBound c c len := ⟨le_refl c, id⟩

theorem StepBound.trans {a b c len : Nat} (h1 : StepBound a b len)
    (h2 : StepBound b c len) : StepBound a c len :=
  ⟨le_trans h1.1 h2.1, fun h => h2.2 (h1.2 h)⟩

theorem StepBound.advT (ts : List Token) (c : Nat) :
    StepBound c (Parser.advT ts c) ts.length :=
  ⟨advT_le ts c, fun h => advT_lt_length h⟩

theorem pbind_ok {α β : Type} {r : PRes α} {g : α → Nat → PRes β}
    {b : β} {c' : Nat} (h : pbind r g = .ok b c') :
    ∃ a c1, r = .ok a c1 ∧ g a c1 = .ok b c' := by
  cases r with
  | ok a c => exact ⟨a, c, rfl, h⟩
  | err e => simp [pbind] at h
  | out => simp [pbind] at h

theorem pbind_ne_out {α β : Type} {r : PRes α} {g : α → Nat → PRes β}
    (h1 : r ≠ .out) (h2 : ∀ a c, r = .ok a c → g a c ≠ .out) :
    pbind r g ≠ .out := by
  cases r with
  | ok a c => exact h2 a c rfl
  | err e => simp [pbind]
  | out => exact absurd rfl h1

theorem expect_ne_out (ts : List Token) (c : Nat) (tt : TokenType) :
    expect ts c tt ≠ .out := by
  simp only [expect]
  split <;> simp

theorem expect_eq_ok {ts : List Token} {c : Nat} {tt : TokenType}
    {tok : Token} {c2 : Nat} (h : expect ts c tt = .ok tok c2) :
    tok = Parser.peekT ts c ∧ tok.type = tt ∧ c2 = Parser.advT ts c := by
  simp only [expect] at h
  split at h
  · cases h
    exact ⟨rfl, by assumption, rfl⟩
  · cases h

theorem expect_cursor {ts : List Token} {c : Nat} {tt : TokenType}
    {tok : Token} {c2 : Nat} (h : expect ts c tt = .ok tok c2) :
    StepBound c c2 ts.length := by
  obtain ⟨-, -, rfl⟩ := expect_eq_ok h
  exact StepBound.advT ts c

/-- With an end-marked token list, a successful `expect` of a non-EOF kind
advances the cursor by exactly one. -/
theorem expect_adv {ts : List Token} {c : Nat} {tt : TokenType}
    {tok : Token} {c2 : Nat} (hE : EndsEOF ts) (htt : tt ≠ TokenType.EOF)
    (h : expect ts c tt = .ok tok c2) : c2 = c + 1 ∧ c < ts.length - 1 := by
  obtain ⟨hpeek, hty, rfl⟩ := expect_eq_ok h
  have hne : (Parser.peekT ts c).type ≠ TokenType.EOF := by
    rw [← hpeek, hty]; exact htt
  have hlt := lt_of_peek_ne_eof hE hne
  exact ⟨advT_eq hlt, hlt⟩

/-- A token captured by `advance()` under a type guard that excludes EOF is
a real input token, and the cursor moves by one. -/
theorem guard_adv {ts : List Token} {c : Nat} (hE : EndsEOF ts)
    (h : (Parser.peekT ts c).type ≠ TokenType.EOF) :
    Parser.advT ts c = c + 1 ∧ c < ts.length - 1 :=
  ⟨advT_eq (lt_of_peek_ne_eof hE h), lt_of_peek_ne_eof hE h⟩

/-- A successful `expect` of a non-EOF kind returns a token of the input
list, never the synthesized marker's kind. -/
theorem expect_leaf {ts : List Token} {c : Nat} {tt : TokenType}
    {tok : Token} {c2 : Nat} (htt : tt ≠ TokenType.EOF)
    (h : expect ts c tt = .ok tok c2) : tok ∈ ts ∧ tok.type ≠ TokenType.EOF := by
  obtain ⟨hpeek, hty, -⟩ := expect_eq_ok h
  have hne : tok.type ≠ TokenType.EOF := by rw [hty]; exact htt
  exact ⟨hpeek ▸ peekT_mem_of_ne_eof (hpeek ▸ hne), hne⟩

/-- Cursor discipline of the recursive descent: a successful parse never
moves the cursor backwards, and never moves it past the end of the token
list. -/
theorem parseNT_cursor (fuel : Nat) : ∀ (nt : NT) (ts : List Token) (c : Nat)
    (a : TreeNode) (c' : Nat), parseNT fuel nt ts c = .ok a c' →
    StepBound c c' ts.length := by
  induction fuel with
  | zero => intro nt ts c a c' h; simp [parseNT] at h
  | succ f ih =>
    intro nt ts c a c' h
    cases nt with
    | S =>
      simp only [parseNT] at h
      obtain ⟨prog, c1, h1, h⟩ := pbind_ok h
      obtain ⟨idt, c2, h2, h⟩ := pbind_ok h
      obtain ⟨semi, c3, h3, h⟩ := pbind_ok h
      obtain ⟨dOpt, c4, h4, h⟩ := pbind_ok h
      obtain ⟨bg, c5, h5, h⟩ := pbind_ok h
      obtain ⟨lN, c6, h6, h⟩ := pbind_ok h
      obtain ⟨en, c7, h7, h⟩ := pbind_ok h
      obtain ⟨dot, c8, h8, h⟩ := pbind_ok h
      cases h
      have s4 : StepBound c3 c4 ts.length := by
        split at h4
        · obtain ⟨d, cd, hd, h4'⟩ := pbind_ok h4
          cases h4'
          exact ih _ _ _ _ _ hd
        · cases h4
          exact StepBound.rfl
      exact (((((((expect_cursor h1).trans (expect_cursor h2)).trans
        (expect_cursor h3)).trans s4).trans (expect_cursor h5)).trans
        (ih _ _ _ _ _ h6)).trans (expect_cursor h7)).trans (expect_cursor h8)
    | D =>
      simp only [parseNT] at h
      obtain ⟨vt, c1, h1, h⟩ := pbind_ok h
      obtain ⟨v, c2, h2, h⟩ := pbind_ok h
      cases h
      exact (expect_cursor h1).trans (ih _ _ _ _ _ h2)
    | V =>
      simp only [parseNT] at h
      obtain ⟨i, c1, h1, h⟩ := pbind_ok h
      obtain ⟨col, c2, h2, h⟩ := pbind_ok h
      obtain ⟨t, c3, h3, h⟩ := pbind_ok h
      obtain ⟨semi, c4, h4, h⟩ := pbind_ok h
      obtain ⟨tail, c5, h5, h⟩ := pbind_ok h
      have s5 : StepBound c4 c5 ts.length := by
        split at h5
        · obtain ⟨v2, cv, hv, h5'⟩ := pbind_ok h5
          cases h5'
          exact ih _ _ _ _ _ hv
        · cases h5
          exact StepBound.rfl
      cases h
      exact ((((ih _ _ _ _ _ h1).trans (expect_cursor h2)).trans
        (ih _ _ _ _ _ h3)).trans (expect_cursor h4)).trans s5
    | T =>
      simp only [parseNT] at h
      split at h
      · cases h
        exact StepBound.advT ts c
      · split at h
        · cases h
          exact StepBound.advT ts c
        · cases h
    | I =>
      simp only [parseNT] at h
      obtain ⟨idt, c1, h1, h⟩ := pbind_ok h
      obtain ⟨tail, c2, h2, h⟩ := pbind_ok h
      have s2 : StepBound c1 c2 ts.length := by
        split at h2
        · obtain ⟨i2, ci, hi, h2'⟩ := pbind_ok h2
          cases h2'
          exact (StepBound.advT ts c1).trans (ih _ _ _ _ _ hi)
        · cases h2
          exact StepBound.rfl
      cases h
      exact (expect_cursor h1).trans s2
    | L =>
      simp only [parseNT] at h
      obtain ⟨cN, c1, h1, h⟩ := pbind_ok h
      obtain ⟨tail, c2, h2, h⟩ := pbind_ok h
      have s2 : StepBound c1 c2 ts.length := by
        split at h2
        · split at h2
          · obtain ⟨l2, cl, hl, h2'⟩ := pbind_ok h2
            cases h2'
            exact (StepBound.advT ts c1).trans (ih _ _ _ _ _ hl)
          · cases h2
            exact StepBound.advT ts c1
        · cases h2
          exact StepBound.rfl
      cases h
      exact (ih _ _ _ _ _ h1).trans s2
    | C =>
      simp only [parseNT] at h
      split at h
      · obtain ⟨x, c1, h1, h⟩ := pbind_ok h
        cases h
        exact ih _ _ _ _ _ h1
      · split at h
        · obtain ⟨x, c1, h1, h⟩ := pbind_ok h
          cases h
          exact ih _ _ _ _ _ h1
        · split at h
          · obtain ⟨x, c1, h1, h⟩ := pbind_ok h
            cases h
            exact ih _ _ _ _ _ h1
          · split at h
            · obtain ⟨x, c1, h1, h⟩ := pbind_ok h
              cases h
              exact ih _ _ _ _ _ h1
            · split at h
              · obtain ⟨x, c1, h1, h⟩ := pbind_ok h
                cases h
                exact ih _ _ _ _ _ h1
              · split at h
                · obtain ⟨x, c1, h1, h⟩ := pbind_ok h
                  cases h
                  exact ih _ _ _ _ _ h1
                · cases h
    | A =>
      simp only [parseNT] at h
      obtain ⟨idt, c1, h1, h⟩ := pbind_ok h
      obtain ⟨asg, c2, h2, h⟩ := pbind_ok h
      obtain ⟨e, c3, h3, h⟩ := pbind_ok h
      cases h
      exact ((expect_cursor h1).trans (expect_cursor h2)).trans (ih _ _ _ _ _ h3)
    | R =>
      simp only [parseNT] at h
      split at h
      · obtain ⟨lp, c1, h1, h⟩ := pbind_ok h
        obtain ⟨i, c2, h2, h⟩ := pbind_ok h
        obtain ⟨rp, c3, h3, h⟩ := pbind_ok h
        cases h
        exact (((StepBound.advT ts c).trans (expect_cursor h1)).trans
          (ih _ _ _ _ _ h2)).trans (expect_cursor h3)
      · split at h
        · split at h
          · obtain ⟨i, c2, h2, h⟩ := pbind_ok h
            obtain ⟨rp, c3, h3, h⟩ := pbind_ok h
            cases h
            exact (((StepBound.advT ts c).trans
              (StepBound.advT ts (Parser.advT ts c))).trans
              (ih _ _ _ _ _ h2)).trans (expect_cursor h3)
          · cases h
            exact StepBound.advT ts c
        · cases h
          exact StepBound.rfl
    | W =>
      simp only [parseNT] at h
      split at h
      · obtain ⟨lp, c1, h1, h⟩ := pbind_ok h
        obtain ⟨fl, c2, h2, h⟩ := pbind_ok h
        obtain ⟨rp, c3, h3, h⟩ := pbind_ok h
        cases h
        exact (((StepBound.advT ts c).trans (expect_cursor h1)).trans
          (ih _ _ _ _ _ h2)).trans (expect_cursor h3)
      · split at h
        · split at h
          · obtain ⟨fl, c2, h2, h⟩ := pbind_ok h
            obtain ⟨rp, c3, h3, h⟩ := pbind_ok h
            cases h
            exact (((StepBound.advT ts c).trans
              (StepBound.advT ts (Parser.advT ts c))).trans
              (ih _ _ _ _ _ h2)).trans (expect_cursor h3)
          · cases h
            exact StepBound.advT ts c
        · cases h
          exact StepBound.rfl
    | F =>
      simp only [parseNT] at h
      obtain ⟨g, c1, h1, h⟩ := pbind_ok h
      obtain ⟨tail, c2, h2, h⟩ := pbind_ok h
      have s2 : StepBound c1 c2 ts.length := by
        split at h2
        · obtain ⟨f2, cf, hf, h2'⟩ := pbind_ok h2
          cases h2'
          exact (StepBound.advT ts c1).trans (ih _ _ _ _ _ hf)
        · cases h2
          exact StepBound.rfl
      cases h
      exact (ih _ _ _ _ _ h1).trans s2
    | G =>
      simp only [parseNT] at h
      split at h
      · cases h
        exact StepBound.advT ts c
      · obtain ⟨e, c1, h1, h⟩ := pbind_ok h
        cases h
        exact ih _ _ _ _ _ h1
    | M =>
      simp only [parseNT] at h
      obtain ⟨bg, c1, h1, h⟩ := pbind_ok h
      obtain ⟨l, c2, h2, h⟩ := pbind_ok h
      obtain ⟨en, c3, h3, h⟩ := pbind_ok h
      cases h
      exact ((expect_cursor h1).trans (ih _ _ _ _ _ h2)).trans (expect_cursor h3)
    | N =>
      simp only [parseNT] at h
      obtain ⟨ift, c1, h1, h⟩ := pbind_ok h
      obtain ⟨b, c2, h2, h⟩ := pbind_ok h
      obtain ⟨tht, c3, h3, h⟩ := pbind_ok h
      obtain ⟨c1n, c4, h4, h⟩ := pbind_ok h
      obtain ⟨tail, c5, h5, h⟩ := pbind_ok h
      have s5 : StepBound c4 c5 ts.length := by
        split at h5
        · obtain ⟨c2n, ce, he, h5'⟩ := pbind_ok h5
          cases h5'
          exact (StepBound.advT ts c4).trans (ih _ _ _ _ _ he)
        · cases h5
          exact StepBound.rfl
      cases h
      exact ((((expect_cursor h1).trans (ih _ _ _ _ _ h2)).trans
        (expect_cursor h3)).trans (ih _ _ _ _ _ h4)).trans s5
    | P =>
      simp only [parseNT] at h
      obtain ⟨wt, c1, h1, h⟩ := pbind_ok h
      obtain ⟨b, c2, h2, h⟩ := pbind_ok h
      obtain ⟨dt, c3, h3, h⟩ := pbind_ok h
      obtain ⟨body, c4, h4, h⟩ := pbind_ok h
      cases h
      exact (((expect_cursor h1).trans (ih _ _ _ _ _ h2)).trans
        (expect_cursor h3)).trans (ih _ _ _ _ _ h4)
    | E =>
      simp only [parseNT] at h
      exact ih _ _ _ _ _ h
    | Eexpr =>
      simp only [parseNT] at h
      obtain ⟨left, c1, h1, h⟩ := pbind_ok h
      obtain ⟨left2, c2, h2, h⟩ := pbind_ok h
      cases h
      exact (ih _ _ _ _ _ h1).trans (ih _ _ _ _ _ h2)
    | Eterm =>
      simp only [parseNT] at h
      obtain ⟨left, c1, h1, h⟩ := pbind_ok h
      exact (ih _ _ _ _ _ h1).trans (ih _ _ _ _ _ h)
    | Efactor =>
      simp only [parseNT] at h
      split at h
      · obtain ⟨sub, c1, h1, h⟩ := pbind_ok h
        cases h
        exact (StepBound.advT ts c).trans (ih _ _ _ _ _ h1)
      · split at h
        · obtain ⟨e, c1, h1, h⟩ := pbind_ok h
          obtain ⟨rp, c2, h2, h⟩ := pbind_ok h
          cases h
          exact ((StepBound.advT ts c).trans (ih _ _ _ _ _ h1)).trans
            (expect_cursor h2)
        · split at h
          · cases h
            exact StepBound.advT ts c
          · split at h
            · cases h
              exact StepBound.advT ts c
            · cases h
    | B =>
      simp only [parseNT] at h
      obtain ⟨left, c1, h1, h⟩ := pbind_ok h
      split at h
      · obtain ⟨right, c2, h2, h⟩ := pbind_ok h
        cases h
        exact ((ih _ _ _ _ _ h1).trans (StepBound.advT ts c1)).trans
          (ih _ _ _ _ _ h2)
      · cases h
        exact ih _ _ _ _ _ h1
    | EexprLoop left =>
      simp only [parseNT] at h
      split at h
      · obtain ⟨right, c1, h1, h⟩ := pbind_ok h
        exact ((StepBound.advT ts c).trans (ih _ _ _ _ _ h1)).trans
          (ih _ _ _ _ _ h)
      · cases h
        exact StepBound.rfl
    | EtermLoop left =>
      simp only [parseNT] at h
      split at h
      · obtain ⟨right, c1, h1, h⟩ := pbind_ok h
        exact ((StepBound.advT ts c).trans (ih _ _ _ _ _ h1)).trans
          (ih _ _ _ _ _ h)
      · cases h
        exact StepBound.rfl

/-- Rank of a non-terminal: along every call made at an unchanged cursor the
rank strictly decreases, so `8 * (remaining tokens) + rank` bounds the call
depth of the descent. -/
def rank : NT → Nat
  | .S => 0 | .D => 0 | .V => 1 | .T => 0 | .I => 0 | .L => 2 | .C => 1
  | .A => 0 | .R => 0 | .W => 0 | .F => 5 | .G => 4 | .M => 0 | .N => 0
  | .P => 0 | .E => 3 | .Eexpr => 2 | .Eterm => 1 | .Efactor => 0 | .B => 4
  | .EexprLoop _ => 0 | .EtermLoop _ => 0

/-- Fuel sufficiency: on an end-marked token list the descent never runs out
of fuel once the fuel exceeds `8 * (remaining tokens) + rank` — i.e. the
Python parser, which has no fuel, terminates. -/
theorem parseNT_suff (fuel : Nat) : ∀ (nt : NT) (ts : List Token) (c : Nat),
    EndsEOF ts → c < ts.length → 8 * (ts.length - c) + rank nt < fuel →
    parseNT fuel nt ts c ≠ .out := by
  induction fuel with
  | zero =>
    intro nt ts c hE hc hm
    exact absurd hm (Nat.not_lt_zero _)
  | succ f ih =>
    intro nt ts c hE hc hm
    cases nt with
    | S =>
      simp only [parseNT]
      refine pbind_ne_out (expect_ne_out _ _ _) fun prog c1 h1 => ?_
      dsimp only
      obtain ⟨hc1, hlt1⟩ := expect_adv hE (by decide) h1
      refine pbind_ne_out (expect_ne_out _ _ _) fun idt c2 h2 => ?_
      dsimp only
      obtain ⟨hc2, hlt2⟩ := expect_adv hE (by decide) h2
      refine pbind_ne_out (expect_ne_out _ _ _) fun semi c3 h3 => ?_
      dsimp only
      obtain ⟨hc3, hlt3⟩ := expect_adv hE (by decide) h3
      refine pbind_ne_out ?_ fun dOpt c4 h4 => ?_
      · split
        · refine pbind_ne_out (ih _ ts c3 hE (by omega) ?_) fun d cd hd => ?_
          · simp only [rank] at hm ⊢
            omega
          · simp
        · simp
      · dsimp only
        have s4 : StepBound c3 c4 ts.length := by
          split at h4
          · obtain ⟨d, cd, hd, h4'⟩ := pbind_ok h4
            cases h4'
            exact parseNT_cursor f _ _ _ _ _ hd
          · cases h4
            exact StepBound.rfl
        refine pbind_ne_out (expect_ne_out _ _ _) fun bg c5 h5 => ?_
        dsimp only
        obtain ⟨hc5, hlt5⟩ := expect_adv hE (by decide) h5
        have hs4 := s4.1
        refine pbind_ne_out (ih _ ts c5 hE (by omega) ?_) fun lN c6 h6 => ?_
        · simp only [rank] at hm ⊢
          omega
        · dsimp only
          refine pbind_ne_out (expect_ne_out _ _ _) fun en c7 h7 => ?_
          dsimp only
          refine pbind_ne_out (expect_ne_out _ _ _) fun dot c8 h8 => ?_
          simp
    | D =>
      simp only [parseNT]
      refine pbind_ne_out (expect_ne_out _ _ _) fun vt c1 h1 => ?_
      dsimp only
      obtain ⟨hc1, hlt1⟩ := expect_adv hE (by decide) h1
      refine pbind_ne_out (ih _ ts c1 hE (by omega) ?_) fun v c2 h2 => ?_
      · simp only [rank] at hm ⊢
        omega
      · simp
    | V =>
      simp only [parseNT]
      refine pbind_ne_out (ih _ ts c hE hc ?_) fun i c1 h1 => ?_
      · simp only [rank] at hm ⊢
        omega
      · dsimp only
        have s1 := parseNT_cursor f _ _ _ _ _ h1
        have hs1 := s1.1
        refine pbind_ne_out (expect_ne_out _ _ _) fun col c2 h2 => ?_
        dsimp only
        obtain ⟨hc2, hlt2⟩ := expect_adv hE (by decide) h2
        refine pbind_ne_out (ih _ ts c2 hE (by omega) ?_) fun t c3 h3 => ?_
        · simp only [rank] at hm ⊢
          omega
        · dsimp only
          have s3 := parseNT_cursor f _ _ _ _ _ h3
          have hs3 := s3.1
          refine pbind_ne_out (expect_ne_out _ _ _) fun semi c4 h4 => ?_
          dsimp only
          obtain ⟨hc4, hlt4⟩ := expect_adv hE (by decide) h4
          refine pbind_ne_out ?_ fun tail c5 h5 => ?_
          · split
            · refine pbind_ne_out (ih _ ts c4 hE (by omega) ?_) fun v2 cv hv => ?_
              · simp only [rank] at hm ⊢
                omega
              · simp
            · simp
          · simp
    | T =>
      simp only [parseNT]
      split
      · simp
      · split <;> simp
    | I =>
      simp only [parseNT]
      refine pbind_ne_out (expect_ne_out _ _ _) fun idt c1 h1 => ?_
      dsimp only
      obtain ⟨hc1, hlt1⟩ := expect_adv hE (by decide) h1
      refine pbind_ne_out ?_ fun tail c2 h2 => ?_
      · split
        · rename_i hg
          obtain ⟨ha, hlt⟩ := @guard_adv ts (c1) hE (by rw [hg]; decide)
          rw [ha]
          refine pbind_ne_out (ih _ ts (c1 + 1) hE (by omega) ?_) fun i2 ci hi => ?_
          · simp only [rank] at hm ⊢
            omega
          · simp
        · simp
      · simp
    | L =>
      simp only [parseNT]
      refine pbind_ne_out (ih _ ts c hE hc ?_) fun cN c1 h1 => ?_
      · simp only [rank] at hm ⊢
        omega
      · dsimp only
        have s1 := parseNT_cursor f _ _ _ _ _ h1
        have hs1 := s1.1
        refine pbind_ne_out ?_ fun tail c2 h2 => ?_
        · split
          · rename_i hg
            obtain ⟨ha, hlt⟩ := @guard_adv ts (c1) hE (by rw [hg]; decide)
            rw [ha]
            split
            · rename_i hg2
              have hlt2 := lt_of_peek_ne_eof hE hg2.2
              refine pbind_ne_out (ih _ ts (c1 + 1) hE (by omega) ?_) fun l2 cl hl => ?_
              · simp only [rank] at hm ⊢
                omega
              · simp
            · simp
          · simp
        · simp
    | C =>
      simp only [parseNT]
      split
      · refine pbind_ne_out (ih _ ts c hE hc ?_) fun x c1 hx => ?_
        · simp only [rank] at hm ⊢
          omega
        · simp
      · split
        · refine pbind_ne_out (ih _ ts c hE hc ?_) fun x c1 hx => ?_
          · simp only [rank] at hm ⊢
            omega
          · simp
        · split
          · refine pbind_ne_out (ih _ ts c hE hc ?_) fun x c1 hx => ?_
            · simp only [rank] at hm ⊢
              omega
            · simp
          · split
            · refine pbind_ne_out (ih _ ts c hE hc ?_) fun x c1 hx => ?_
              · simp only [rank] at hm ⊢
                omega
              · simp
            · split
              · refine pbind_ne_out (ih _ ts c hE hc ?_) fun x c1 hx => ?_
                · simp only [rank] at hm ⊢
                  omega
                · simp
              · split
                · refine pbind_ne_out (ih _ ts c hE hc ?_) fun x c1 hx => ?_
                  · simp only [rank] at hm ⊢
                    omega
                  · simp
                · simp
    | A =>
      simp only [parseNT]
      refine pbind_ne_out (expect_ne_out _ _ _) fun idt c1 h1 => ?_
      dsimp only
      obtain ⟨hc1, hlt1⟩ := expect_adv hE (by decide) h1
      refine pbind_ne_out (expect_ne_out _ _ _) fun asg c2 h2 => ?_
      dsimp only
      obtain ⟨hc2, hlt2⟩ := expect_adv hE (by decide) h2
      refine pbind_ne_out (ih _ ts c2 hE (by omega) ?_) fun e c3 h3 => ?_
      · simp only [rank] at hm ⊢
        omega
      · simp
    | R =>
      simp only [parseNT]
      split
      · rename_i hg
        obtain ⟨ha, hlt⟩ := @guard_adv ts (c) hE (by rw [hg]; decide)
        rw [ha]
        refine pbind_ne_out (expect_ne_out _ _ _) fun lp c1 h1 => ?_
        dsimp only
        obtain ⟨hc1, hlt1⟩ := expect_adv hE (by decide) h1
        refine pbind_ne_out (ih _ ts c1 hE (by omega) ?_) fun i c2 h2 => ?_
        · simp only [rank] at hm ⊢
          omega
        · dsimp only
          refine pbind_ne_out (expect_ne_out _ _ _) fun rp c3 h3 => ?_
          simp
      · split
        · rename_i hg hg2
          obtain ⟨ha, hlt⟩ := @guard_adv ts (c) hE (by rw [hg2]; decide)
          rw [ha]
          split
          · rename_i hg3
            obtain ⟨ha2, hlt2⟩ := @guard_adv ts (c + 1) hE (by rw [hg3]; decide)
            rw [ha2]
            refine pbind_ne_out (ih _ ts (c + 1 + 1) hE (by omega) ?_) fun i c2 h2 => ?_
            · simp only [rank] at hm ⊢
              omega
            · dsimp only
              refine pbind_ne_out (expect_ne_out _ _ _) fun rp c3 h3 => ?_
              simp
          · simp
        · simp
    | W =>
      simp only [parseNT]
      split
      · rename_i hg
        obtain ⟨ha, hlt⟩ := @guard_adv ts (c) hE (by rw [hg]; decide)
        rw [ha]
        refine pbind_ne_out (expect_ne_out _ _ _) fun lp c1 h1 => ?_
        dsimp only
        obtain ⟨hc1, hlt1⟩ := expect_adv hE (by decide) h1
        refine pbind_ne_out (ih _ ts c1 hE (by omega) ?_) fun fl c2 h2 => ?_
        · simp only [rank] at hm ⊢
          omega
        · dsimp only
          refine pbind_ne_out (expect_ne_out _ _ _) fun rp c3 h3 => ?_
          simp
      · split
        · rename_i hg hg2
          obtain ⟨ha, hlt⟩ := @guard_adv ts (c) hE (by rw [hg2]; decide)
          rw [ha]
          split
          · rename_i hg3
            obtain ⟨ha2, hlt2⟩ := @guard_adv ts (c + 1) hE (by rw [hg3]; decide)
            rw [ha2]
            refine pbind_ne_out (ih _ ts (c + 1 + 1) hE (by omega) ?_) fun fl c2 h2 => ?_
            · simp only [rank] at hm ⊢
              omega
            · dsimp only
              refine pbind_ne_out (expect_ne_out _ _ _) fun rp c3 h3 => ?_
              simp
          · simp
        · simp
    | F =>
      simp only [parseNT]
      refine pbind_ne_out (ih _ ts c hE hc ?_) fun g c1 h1 => ?_
      · simp only [rank] at hm ⊢
        omega
      · dsimp only
        have s1 := parseNT_cursor f _ _ _ _ _ h1
        have hs1 := s1.1
        refine pbind_ne_out ?_ fun tail c2 h2 => ?_
        · split
          · rename_i hg
            obtain ⟨ha, hlt⟩ := @guard_adv ts (c1) hE (by rw [hg]; decide)
            rw [ha]
            refine pbind_ne_out (ih _ ts (c1 + 1) hE (by omega) ?_) fun f2 cf hf => ?_
            · simp only [rank] at hm ⊢
              omega
            · simp
          · simp
        · simp
    | G =>
      simp only [parseNT]
      split
      · simp
      · refine pbind_ne_out (ih _ ts c hE hc ?_) fun e c1 he => ?_
        · simp only [rank] at hm ⊢
          omega
        · simp
    | M =>
      simp only [parseNT]
      refine pbind_ne_out (expect_ne_out _ _ _) fun bg c1 h1 => ?_
      dsimp only
      obtain ⟨hc1, hlt1⟩ := expect_adv hE (by decide) h1
      refine pbind_ne_out (ih _ ts c1 hE (by omega) ?_) fun l c2 h2 => ?_
      · simp only [rank] at hm ⊢
        omega
      · dsimp only
        refine pbind_ne_out (expect_ne_out _ _ _) fun en c3 h3 => ?_
        simp
    | N =>
      simp only [parseNT]
      refine pbind_ne_out (expect_ne_out _ _ _) fun ift c1 h1 => ?_
      dsimp only
      obtain ⟨hc1, hlt1⟩ := expect_adv hE (by decide) h1
      refine pbind_ne_out (ih _ ts c1 hE (by omega) ?_) fun b c2 h2 => ?_
      · simp only [rank] at hm ⊢
        omega
      · dsimp only
        have s2 := parseNT_cursor f _ _ _ _ _ h2
        have hs2 := s2.1
        refine pbind_ne_out (expect_ne_out _ _ _) fun tht c3 h3 => ?_
        dsimp only
        obtain ⟨hc3, hlt3⟩ := expect_adv hE (by decide) h3
        refine pbind_ne_out (ih _ ts c3 hE (by omega) ?_) fun c1n c4 h4 => ?_
        · simp only [rank] at hm ⊢
          omega
        · dsimp only
          have s4 := parseNT_cursor f _ _ _ _ _ h4
          have hs4 := s4.1
          refine pbind_ne_out ?_ fun tail c5 h5 => ?_
          · split
            · rename_i hg
              obtain ⟨ha, hlt⟩ := @guard_adv ts (c4) hE (by rw [hg]; decide)
              rw [ha]
              refine pbind_ne_out (ih _ ts (c4 + 1) hE (by omega) ?_) fun c2n ce he => ?_
              · simp only [rank] at hm ⊢
                omega
              · simp
            · simp
          · simp
    | P =>
      simp only [parseNT]
      refine pbind_ne_out (expect_ne_out _ _ _) fun wt c1 h1 => ?_
      dsimp only
      obtain ⟨hc1, hlt1⟩ := expect_adv hE (by decide) h1
      refine pbind_ne_out (ih _ ts c1 hE (by omega) ?_) fun b c2 h2 => ?_
      · simp only [rank] at hm ⊢
        omega
      · dsimp only
        have s2 := parseNT_cursor f _ _ _ _ _ h2
        have hs2 := s2.1
        refine pbind_ne_out (expect_ne_out _ _ _) fun dt c3 h3 => ?_
        dsimp only
        obtain ⟨hc3, hlt3⟩ := expect_adv hE (by decide) h3
        refine pbind_ne_out (ih _ ts c3 hE (by omega) ?_) fun body c4 h4 => ?_
        · simp only [rank] at hm ⊢
          omega
        · simp
    | E =>
      simp only [parseNT]
      refine ih _ ts c hE hc ?_
      simp only [rank] at hm ⊢
      omega
    | Eexpr =>
      simp only [parseNT]
      refine pbind_ne_out (ih _ ts c hE hc ?_) fun left c1 h1 => ?_
      · simp only [rank] at hm ⊢
        omega
      · dsimp only
        have s1 := parseNT_cursor f _ _ _ _ _ h1
        have hs1 := s1.1
        refine pbind_ne_out (ih _ ts c1 hE (s1.2 hc) ?_) fun left2 c2 h2 => ?_
        · simp only [rank] at hm ⊢
          omega
        · simp
    | Eterm =>
      simp only [parseNT]
      refine pbind_ne_out (ih _ ts c hE hc ?_) fun left c1 h1 => ?_
      · simp only [rank] at hm ⊢
        omega
      · dsimp only
        have s1 := parseNT_cursor f _ _ _ _ _ h1
        have hs1 := s1.1
        refine ih _ ts c1 hE (s1.2 hc) ?_
        simp only [rank] at hm ⊢
        omega
    | Efactor =>
      simp only [parseNT]
      split
      · rename_i hg
        obtain ⟨ha, hlt⟩ := @guard_adv ts (c) hE (by rw [hg]; decide)
        rw [ha]
        refine pbind_ne_out (ih _ ts (c + 1) hE (by omega) ?_) fun sub c1 h1 => ?_
        · simp only [rank] at hm ⊢
          omega
        · simp
      · split
        · rename_i hg hg2
          obtain ⟨ha, hlt⟩ := @guard_adv ts (c) hE (by rw [hg2]; decide)
          rw [ha]
          refine pbind_ne_out (ih _ ts (c + 1) hE (by omega) ?_) fun e c1 h1 => ?_
          · simp only [rank] at hm ⊢
            omega
          · dsimp only
            refine pbind_ne_out (expect_ne_out _ _ _) fun rp c2 h2 => ?_
            simp
        · split
          · simp
          · split <;> simp
    | B =>
      simp only [parseNT]
      refine pbind_ne_out (ih _ ts c hE hc ?_) fun left c1 h1 => ?_
      · simp only [rank] at hm ⊢
        omega
      · dsimp only
        have s1 := parseNT_cursor f _ _ _ _ _ h1
        have hs1 := s1.1
        split
        · rename_i hg
          have hne : (Parser.peekT ts c1).type ≠ TokenType.EOF := by
            rcases hg with hg | hg | hg | hg | hg | hg <;> (rw [hg]; decide)
          obtain ⟨ha, hlt⟩ := guard_adv hE hne
          rw [ha]
          refine pbind_ne_out (ih _ ts (c1 + 1) hE (by omega) ?_) fun right c2 h2 => ?_
          · simp only [rank] at hm ⊢
            omega
          · simp
        · simp
    | EexprLoop left =>
      simp only [parseNT]
      split
      · rename_i hg
        have hne : (Parser.peekT ts c).type ≠ TokenType.EOF := by
          rcases hg with hg | hg <;> (rw [hg]; decide)
        obtain ⟨ha, hlt⟩ := guard_adv hE hne
        rw [ha]
        refine pbind_ne_out (ih _ ts (c + 1) hE (by omega) ?_) fun right c1 h1 => ?_
        · simp only [rank] at hm ⊢
          omega
        · dsimp only
          have s1 := parseNT_cursor f _ _ _ _ _ h1
          have hs1 := s1.1
          refine ih _ ts c1 hE (s1.2 (by omega)) ?_
          simp only [rank] at hm ⊢
          omega
      · simp
    | EtermLoop left =>
      simp only [parseNT]
      split
      · rename_i hg
        have hne : (Parser.peekT ts c).type ≠ TokenType.EOF := by
          rcases hg with hg | hg <;> (rw [hg]; decide)
        obtain ⟨ha, hlt⟩ := guard_adv hE hne
        rw [ha]
        refine pbind_ne_out (ih _ ts (c + 1) hE (by omega) ?_) fun right c1 h1 => ?_
        · simp only [rank] at hm ⊢
          omega
        · dsimp only
          have s1 := parseNT_cursor f _ _ _ _ _ h1
          have hs1 := s1.1
          refine ih _ ts c1 hE (s1.2 (by omega)) ?_
          simp only [rank] at hm ⊢
          omega
      · simp

/-- The accumulator leaves a loop tag carries into the descent (empty for
every proper non-terminal). -/
def loopAcc : NT → List Token
  | .EexprLoop left => tokensOf left
  | .EtermLoop left => tokensOf left
  | _ => []

/-- Origin of every leaf token of a parsed tree: each one is a token of the
parser's token list and is never of the synthetic end marker's kind (or, for
a loop tag, may come from the accumulated left operand). -/
theorem parseNT_leaves (fuel : Nat) : ∀ (nt : NT) (ts : List Token) (c : Nat)
    (a : TreeNode) (c' : Nat), parseNT fuel nt ts c = .ok a c' →
    ∀ t ∈ tokensOf a, (t ∈ ts ∧ t.type ≠ TokenType.EOF) ∨ t ∈ loopAcc nt := by
  induction fuel with
  | zero => intro nt ts c a c' h; simp [parseNT] at h
  | succ f ih =>
    intro nt ts c a c' h
    cases nt with
    | S =>
      simp only [parseNT] at h
      obtain ⟨prog, c1, h1, h⟩ := pbind_ok h
      obtain ⟨idt, c2, h2, h⟩ := pbind_ok h
      obtain ⟨semi, c3, h3, h⟩ := pbind_ok h
      obtain ⟨dOpt, c4, h4, h⟩ := pbind_ok h
      obtain ⟨bg, c5, h5, h⟩ := pbind_ok h
      obtain ⟨lN, c6, h6, h⟩ := pbind_ok h
      obtain ⟨en, c7, h7, h⟩ := pbind_ok h
      obtain ⟨dot, c8, h8, h⟩ := pbind_ok h
      have hdOpt : ∀ t x, x ∈ dOpt → t ∈ tokensOf x →
          t ∈ ts ∧ t.type ≠ TokenType.EOF := by
        split at h4
        · obtain ⟨d, cd, hd, h4'⟩ := pbind_ok h4
          cases h4'
          intro t x hx htx
          simp only [List.mem_singleton] at hx
          subst hx
          exact (ih _ _ _ _ _ hd t htx).resolve_right (by simp [loopAcc])
        · cases h4
          intro t x hx
          simp at hx
      cases h
      intro t ht
      simp [tokensOf_node] at ht
      rcases ht with rfl | rfl | rfl | ⟨x, hx, htx⟩ | rfl | htl | rfl | rfl
      · exact Or.inl (expect_leaf (by decide) h1)
      · exact Or.inl (expect_leaf (by decide) h2)
      · exact Or.inl (expect_leaf (by decide) h3)
      · exact Or.inl (hdOpt t x hx htx)
      · exact Or.inl (expect_leaf (by decide) h5)
      · exact Or.inl ((ih _ _ _ _ _ h6 t htl).resolve_right (by simp [loopAcc]))
      · exact Or.inl (expect_leaf (by decide) h7)
      · exact Or.inl (expect_leaf (by decide) h8)
    | D =>
      simp only [parseNT] at h
      obtain ⟨vt, c1, h1, h⟩ := pbind_ok h
      obtain ⟨v, c2, h2, h⟩ := pbind_ok h
      cases h
      intro t ht
      simp [tokensOf_node] at ht
      rcases ht with rfl | htv
      · exact Or.inl (expect_leaf (by decide) h1)
      · exact Or.inl ((ih _ _ _ _ _ h2 t htv).resolve_right (by simp [loopAcc]))
    | V =>
      simp only [parseNT] at h
      obtain ⟨i, c1, h1, h⟩ := pbind_ok h
      obtain ⟨col, c2, h2, h⟩ := pbind_ok h
      obtain ⟨ty, c3, h3, h⟩ := pbind_ok h
      obtain ⟨semi, c4, h4, h⟩ := pbind_ok h
      obtain ⟨tail, c5, h5, h⟩ := pbind_ok h
      have htail : ∀ t x, x ∈ tail → t ∈ tokensOf x →
          t ∈ ts ∧ t.type ≠ TokenType.EOF := by
        split at h5
        · obtain ⟨v2, cv, hv, h5'⟩ := pbind_ok h5
          cases h5'
          intro t x hx htx
          simp only [List.mem_singleton] at hx
          subst hx
          exact (ih _ _ _ _ _ hv t htx).resolve_right (by simp [loopAcc])
        · cases h5
          intro t x hx
          simp at hx
      cases h
      intro t ht
      simp [tokensOf_node] at ht
      rcases ht with hti | rfl | hty | rfl | ⟨x, hx, htx⟩
      · exact Or.inl ((ih _ _ _ _ _ h1 t hti).resolve_right (by simp [loopAcc]))
      · exact Or.inl (expect_leaf (by decide) h2)
      · exact Or.inl ((ih _ _ _ _ _ h3 t hty).resolve_right (by simp [loopAcc]))
      · exact Or.inl (expect_leaf (by decide) h4)
      · exact Or.inl (htail t x hx htx)
    | T =>
      simp only [parseNT] at h
      split at h
      · rename_i hg
        cases h
        intro t ht
        simp [tokensOf_node] at ht
        subst ht
        have hne : (Parser.peekT ts c).type ≠ TokenType.EOF := by rw [hg]; decide
        exact Or.inl ⟨peekT_mem_of_ne_eof hne, hne⟩
      · split at h
        · rename_i hg hg2
          cases h
          intro t ht
          simp [tokensOf_node] at ht
          subst ht
          have hne : (Parser.peekT ts c).type ≠ TokenType.EOF := by rw [hg2]; decide
          exact Or.inl ⟨peekT_mem_of_ne_eof hne, hne⟩
        · cases h
    | I =>
      simp only [parseNT] at h
      obtain ⟨idt, c1, h1, h⟩ := pbind_ok h
      obtain ⟨tail, c2, h2, h⟩ := pbind_ok h
      have htail : ∀ t x, x ∈ tail → t ∈ tokensOf x →
          t ∈ ts ∧ t.type ≠ TokenType.EOF := by
        split at h2
        · rename_i hg
          obtain ⟨i2, ci, hi, h2'⟩ := pbind_ok h2
          cases h2'
          intro t x hx htx
          simp only [List.mem_cons, List.mem_singleton, List.not_mem_nil,
            or_false] at hx
          rcases hx with rfl | rfl
          · simp [tokensOf_node] at htx
            subst htx
            have hne : (Parser.peekT ts c1).type ≠ TokenType.EOF := by
              rw [hg]; decide
            exact ⟨peekT_mem_of_ne_eof hne, hne⟩
          · exact (ih _ _ _ _ _ hi t htx).resolve_right (by simp [loopAcc])
        · cases h2
          intro t x hx
          simp at hx
      cases h
      intro t ht
      simp [tokensOf_node] at ht
      rcases ht with rfl | ⟨x, hx, htx⟩
      · exact Or.inl (expect_leaf (by decide) h1)
      · exact Or.inl (htail t x hx htx)
    | L =>
      simp only [parseNT] at h
      obtain ⟨cN, c1, h1, h⟩ := pbind_ok h
      obtain ⟨tail, c2, h2, h⟩ := pbind_ok h
      have htail : ∀ t x, x ∈ tail → t ∈ tokensOf x →
          t ∈ ts ∧ t.type ≠ TokenType.EOF := by
        split at h2
        · rename_i hg
          have hne : (Parser.peekT ts c1).type ≠ TokenType.EOF := by
            rw [hg]; decide
          split at h2
          · obtain ⟨l2, cl, hl, h2'⟩ := pbind_ok h2
            cases h2'
            intro t x hx htx
            simp only [List.mem_cons, List.mem_singleton, List.not_mem_nil,
              or_false] at hx
            rcases hx with rfl | rfl
            · simp [tokensOf_node] at htx
              subst htx
              exact ⟨peekT_mem_of_ne_eof hne, hne⟩
            · exact (ih _ _ _ _ _ hl t htx).resolve_right (by simp [loopAcc])
          · cases h2
            intro t x hx htx
            simp only [List.mem_singleton] at hx
            subst hx
            simp [tokensOf_node] at htx
            subst htx
            exact ⟨peekT_mem_of_ne_eof hne, hne⟩
        · cases h2
          intro t x hx
          simp at hx
      cases h
      intro t ht
      simp [tokensOf_node] at ht
      rcases ht with htc | ⟨x, hx, htx⟩
      · exact Or.inl ((ih _ _ _ _ _ h1 t htc).resolve_right (by simp [loopAcc]))
      · exact Or.inl (htail t x hx htx)
    | C =>
      simp only [parseNT] at h
      have wrap : ∀ (nt' : NT) (x : TreeNode) (c1 : Nat),
          parseNT f nt' ts c = .ok x c1 → loopAcc nt' = [] →
          ∀ t ∈ tokensOf (.node "C" none [x]),
          (t ∈ ts ∧ t.type ≠ TokenType.EOF) ∨ t ∈ loopAcc NT.C := by
        intro nt' x c1 hx hnil t ht
        simp [tokensOf_node] at ht
        exact Or.inl ((ih _ _ _ _ _ hx t ht).resolve_right (by simp [hnil]))
      split at h
      · obtain ⟨x, c1, hx, h⟩ := pbind_ok h
        cases h
        exact wrap _ _ _ hx (by simp [loopAcc])
      · split at h
        · obtain ⟨x, c1, hx, h⟩ := pbind_ok h
          cases h
          exact wrap _ _ _ hx (by simp [loopAcc])
        · split at h
          · obtain ⟨x, c1, hx, h⟩ := pbind_ok h
            cases h
            exact wrap _ _ _ hx (by simp [loopAcc])
          · split at h
            · obtain ⟨x, c1, hx, h⟩ := pbind_ok h
              cases h
              exact wrap _ _ _ hx (by simp [loopAcc])
            · split at h
              · obtain ⟨x, c1, hx, h⟩ := pbind_ok h
                cases h
                exact wrap _ _ _ hx (by simp [loopAcc])
              · split at h
                · obtain ⟨x, c1, hx, h⟩ := pbind_ok h
                  cases h
                  exact wrap _ _ _ hx (by simp [loopAcc])
                · cases h
    | A =>
      simp only [parseNT] at h
      obtain ⟨idt, c1, h1, h⟩ := pbind_ok h
      obtain ⟨asg, c2, h2, h⟩ := pbind_ok h
      obtain ⟨e, c3, h3, h⟩ := pbind_ok h
      cases h
      intro t ht
      simp [tokensOf_node] at ht
      rcases ht with rfl | rfl | hte
      · exact Or.inl (expect_leaf (by decide) h1)
      · exact Or.inl (expect_leaf (by decide) h2)
      · exact Or.inl ((ih _ _ _ _ _ h3 t hte).resolve_right (by simp [loopAcc]))
    | R =>
      simp only [parseNT] at h
      split at h
      · rename_i hg
        have hne : (Parser.peekT ts c).type ≠ TokenType.EOF := by rw [hg]; decide
        obtain ⟨lp, c1, h1, h⟩ := pbind_ok h
        obtain ⟨i, c2, h2, h⟩ := pbind_ok h
        obtain ⟨rp, c3, h3, h⟩ := pbind_ok h
        cases h
        intro t ht
        simp [tokensOf_node] at ht
        rcases ht with rfl | rfl | hti | rfl
        · exact Or.inl ⟨peekT_mem_of_ne_eof hne, hne⟩
        · exact Or.inl (expect_leaf (by decide) h1)
        · exact Or.inl ((ih _ _ _ _ _ h2 t hti).resolve_right (by simp [loopAcc]))
        · exact Or.inl (expect_leaf (by decide) h3)
      · split at h
        · rename_i hg hg2
          have hne : (Parser.peekT ts c).type ≠ TokenType.EOF := by rw [hg2]; decide
          split at h
          · rename_i hg3
            have hne3 : (Parser.peekT ts (Parser.advT ts c)).type ≠ TokenType.EOF := by
              rw [hg3]; decide
            obtain ⟨i, c2, h2, h⟩ := pbind_ok h
            obtain ⟨rp, c3, h3, h⟩ := pbind_ok h
            cases h
            intro t ht
            simp [tokensOf_node] at ht
            rcases ht with rfl | rfl | hti | rfl
            · exact Or.inl ⟨peekT_mem_of_ne_eof hne, hne⟩
            · exact Or.inl ⟨peekT_mem_of_ne_eof hne3, hne3⟩
            · exact Or.inl ((ih _ _ _ _ _ h2 t hti).resolve_right (by simp [loopAcc]))
            · exact Or.inl (expect_leaf (by decide) h3)
          · cases h
            intro t ht
            simp [tokensOf_node] at ht
            subst ht
            exact Or.inl ⟨peekT_mem_of_ne_eof hne, hne⟩
        · cases h
          intro t ht
          simp [tokensOf_node] at ht
    | W =>
      simp only [parseNT] at h
      split at h
      · rename_i hg
        have hne : (Parser.peekT ts c).type ≠ TokenType.EOF := by rw [hg]; decide
        obtain ⟨lp, c1, h1, h⟩ := pbind_ok h
        obtain ⟨fl, c2, h2, h⟩ := pbind_ok h
        obtain ⟨rp, c3, h3, h⟩ := pbind_ok h
        cases h
        intro t ht
        simp [tokensOf_node] at ht
        rcases ht with rfl | rfl | htf | rfl
        · exact Or.inl ⟨peekT_mem_of_ne_eof hne, hne⟩
        · exact Or.inl (expect_leaf (by decide) h1)
        · exact Or.inl ((ih _ _ _ _ _ h2 t htf).resolve_right (by simp [loopAcc]))
        · exact Or.inl (expect_leaf (by decide) h3)
      · split at h
        · rename_i hg hg2
          have hne : (Parser.peekT ts c).type ≠ TokenType.EOF := by rw [hg2]; decide
          split at h
          · rename_i hg3
            have hne3 : (Parser.peekT ts (Parser.advT ts c)).type ≠ TokenType.EOF := by
              rw [hg3]; decide
            obtain ⟨fl, c2, h2, h⟩ := pbind_ok h
            obtain ⟨rp, c3, h3, h⟩ := pbind_ok h
            cases h
            intro t ht
            simp [tokensOf_node] at ht
            rcases ht with rfl | rfl | htf | rfl
            · exact Or.inl ⟨peekT_mem_of_ne_eof hne, hne⟩
            · exact Or.inl ⟨peekT_mem_of_ne_eof hne3, hne3⟩
            · exact Or.inl ((ih _ _ _ _ _ h2 t htf).resolve_right (by simp [loopAcc]))
            · exact Or.inl (expect_leaf (by decide) h3)
          · cases h
            intro t ht
            simp [tokensOf_node] at ht
            subst ht
            exact Or.inl ⟨peekT_mem_of_ne_eof hne, hne⟩
        · cases h
          intro t ht
          simp [tokensOf_node] at ht
    | F =>
      simp only [parseNT] at h
      obtain ⟨g, c1, h1, h⟩ := pbind_ok h
      obtain ⟨tail, c2, h2, h⟩ := pbind_ok h
      have htail : ∀ t x, x ∈ tail → t ∈ tokensOf x →
          t ∈ ts ∧ t.type ≠ TokenType.EOF := by
        split at h2
        · rename_i hg
          obtain ⟨f2, cf, hf, h2'⟩ := pbind_ok h2
          cases h2'
          intro t x hx htx
          simp only [List.mem_cons, List.mem_singleton, List.not_mem_nil,
            or_false] at hx
          rcases hx with rfl | rfl
          · simp [tokensOf_node] at htx
            subst htx
            have hne : (Parser.peekT ts c1).type ≠ TokenType.EOF := by
              rw [hg]; decide
            exact ⟨peekT_mem_of_ne_eof hne, hne⟩
          · exact (ih _ _ _ _ _ hf t htx).resolve_right (by simp [loopAcc])
        · cases h2
          intro t x hx
          simp at hx
      cases h
      intro t ht
      simp [tokensOf_node] at ht
      rcases ht with htg | ⟨x, hx, htx⟩
      · exact Or.inl ((ih _ _ _ _ _ h1 t htg).resolve_right (by simp [loopAcc]))
      · exact Or.inl (htail t x hx htx)
    | G =>
      simp only [parseNT] at h
      split at h
      · rename_i hg
        have hne : (Parser.peekT ts c).type ≠ TokenType.EOF := by rw [hg]; decide
        cases h
        intro t ht
        simp [tokensOf_node] at ht
        subst ht
        exact Or.inl ⟨peekT_mem_of_ne_eof hne, hne⟩
      · obtain ⟨e, c1, h1, h⟩ := pbind_ok h
        cases h
        intro t ht
        simp [tokensOf_node] at ht
        exact Or.inl ((ih _ _ _ _ _ h1 t ht).resolve_right (by simp [loopAcc]))
    | M =>
      simp only [parseNT] at h
      obtain ⟨bg, c1, h1, h⟩ := pbind_ok h
      obtain ⟨l, c2, h2, h⟩ := pbind_ok h
      obtain ⟨en, c3, h3, h⟩ := pbind_ok h
      cases h
      intro t ht
      simp [tokensOf_node] at ht
      rcases ht with rfl | htl | rfl
      · exact Or.inl (expect_leaf (by decide) h1)
      · exact Or.inl ((ih _ _ _ _ _ h2 t htl).resolve_right (by simp [loopAcc]))
      · exact Or.inl (expect_leaf (by decide) h3)
    | N =>
      simp only [parseNT] at h
      obtain ⟨ift, c1, h1, h⟩ := pbind_ok h
      obtain ⟨b, c2, h2, h⟩ := pbind_ok h
      obtain ⟨tht, c3, h3, h⟩ := pbind_ok h
      obtain ⟨c1n, c4, h4, h⟩ := pbind_ok h
      obtain ⟨tail, c5, h5, h⟩ := pbind_ok h
      have htail : ∀ t x, x ∈ tail → t ∈ tokensOf x →
          t ∈ ts ∧ t.type ≠ TokenType.EOF := by
        split at h5
        · rename_i hg
          have hne : (Parser.peekT ts c4).type ≠ TokenType.EOF := by rw [hg]; decide
          obtain ⟨c2n, ce, he, h5'⟩ := pbind_ok h5
          cases h5'
          intro t x hx htx
          simp only [List.mem_cons, List.mem_singleton, List.not_mem_nil,
            or_false] at hx
          rcases hx with rfl | rfl
          · simp [tokensOf_node] at htx
            subst htx
            exact ⟨peekT_mem_of_ne_eof hne, hne⟩
          · exact (ih _ _ _ _ _ he t htx).resolve_right (by simp [loopAcc])
        · cases h5
          intro t x hx
          simp at hx
      cases h
      intro t ht
      simp [tokensOf_node] at ht
      rcases ht with rfl | htb | rfl | htc | ⟨x, hx, htx⟩
      · exact Or.inl (expect_leaf (by decide) h1)
      · exact Or.inl ((ih _ _ _ _ _ h2 t htb).resolve_right (by simp [loopAcc]))
      · exact Or.inl (expect_leaf (by decide) h3)
      · exact Or.inl ((ih _ _ _ _ _ h4 t htc).resolve_right (by simp [loopAcc]))
      · exact Or.inl (htail t x hx htx)
    | P =>
      simp only [parseNT] at h
      obtain ⟨wt, c1, h1, h⟩ := pbind_ok h
      obtain ⟨b, c2, h2, h⟩ := pbind_ok h
      obtain ⟨dt, c3, h3, h⟩ := pbind_ok h
      obtain ⟨body, c4, h4, h⟩ := pbind_ok h
      cases h
      intro t ht
      simp [tokensOf_node] at ht
      rcases ht with rfl | htb | rfl | htc
      · exact Or.inl (expect_leaf (by decide) h1)
      · exact Or.inl ((ih _ _ _ _ _ h2 t htb).resolve_right (by simp [loopAcc]))
      · exact Or.inl (expect_leaf (by decide) h3)
      · exact Or.inl ((ih _ _ _ _ _ h4 t htc).resolve_right (by simp [loopAcc]))
    | E =>
      simp only [parseNT] at h
      intro t ht
      exact Or.inl ((ih _ _ _ _ _ h t ht).resolve_right (by simp [loopAcc]))
    | Eexpr =>
      simp only [parseNT] at h
      obtain ⟨left, c1, h1, h⟩ := pbind_ok h
      obtain ⟨left2, c2, h2, h⟩ := pbind_ok h
      cases h
      intro t ht
      simp [tokensOf_node] at ht
      rcases ih _ _ _ _ _ h2 t ht with hg2 | hacc
      · exact Or.inl hg2
      · simp only [loopAcc] at hacc
        exact Or.inl ((ih _ _ _ _ _ h1 t hacc).resolve_right (by simp [loopAcc]))
    | Eterm =>
      simp only [parseNT] at h
      obtain ⟨left, c1, h1, h⟩ := pbind_ok h
      intro t ht
      rcases ih _ _ _ _ _ h t ht with hg2 | hacc
      · exact Or.inl hg2
      · simp only [loopAcc] at hacc
        exact Or.inl ((ih _ _ _ _ _ h1 t hacc).resolve_right (by simp [loopAcc]))
    | Efactor =>
      simp only [parseNT] at h
      split at h
      · rename_i hg
        have hne : (Parser.peekT ts c).type ≠ TokenType.EOF := by rw [hg]; decide
        obtain ⟨sub, c1, h1, h⟩ := pbind_ok h
        cases h
        intro t ht
        simp [tokensOf_node] at ht
        rcases ht with rfl | hts
        · exact Or.inl ⟨peekT_mem_of_ne_eof hne, hne⟩
        · exact Or.inl ((ih _ _ _ _ _ h1 t hts).resolve_right (by simp [loopAcc]))
      · split at h
        · obtain ⟨e, c1, h1, h⟩ := pbind_ok h
          obtain ⟨rp, c2, h2, h⟩ := pbind_ok h
          cases h
          intro t ht
          exact Or.inl ((ih _ _ _ _ _ h1 t ht).resolve_right (by simp [loopAcc]))
        · split at h
          · rename_i hg hg2 hg3
            have hne : (Parser.peekT ts c).type ≠ TokenType.EOF := by rw [hg3]; decide
            cases h
            intro t ht
            simp [tokensOf_node] at ht
            subst ht
            exact Or.inl ⟨peekT_mem_of_ne_eof hne, hne⟩
          · split at h
            · rename_i hg hg2 hg3 hg4
              have hne : (Parser.peekT ts c).type ≠ TokenType.EOF := by rw [hg4]; decide
              cases h
              intro t ht
              simp [tokensOf_node] at ht
              subst ht
              exact Or.inl ⟨peekT_mem_of_ne_eof hne, hne⟩
            · cases h
    | B =>
      simp only [parseNT] at h
      obtain ⟨left, c1, h1, h⟩ := pbind_ok h
      split at h
      · rename_i hg
        have hne : (Parser.peekT ts c1).type ≠ TokenType.EOF := by
          rcases hg with hg | hg | hg | hg | hg | hg <;> (rw [hg]; decide)
        obtain ⟨right, c2, h2, h⟩ := pbind_ok h
        cases h
        intro t ht
        simp [tokensOf_node] at ht
        rcases ht with htl | rfl | htr
        · exact Or.inl ((ih _ _ _ _ _ h1 t htl).resolve_right (by simp [loopAcc]))
        · exact Or.inl ⟨peekT_mem_of_ne_eof hne, hne⟩
        · exact Or.inl ((ih _ _ _ _ _ h2 t htr).resolve_right (by simp [loopAcc]))
      · cases h
        intro t ht
        simp [tokensOf_node] at ht
        exact Or.inl ((ih _ _ _ _ _ h1 t ht).resolve_right (by simp [loopAcc]))
    | EexprLoop left =>
      simp only [parseNT] at h
      split at h
      · rename_i hg
        have hne : (Parser.peekT ts c).type ≠ TokenType.EOF := by
          rcases hg with hg | hg <;> (rw [hg]; decide)
        obtain ⟨right, c1, h1, h⟩ := pbind_ok h
        intro t ht
        rcases ih _ _ _ _ _ h t ht with hg2 | hacc
        · exact Or.inl hg2
        · simp only [loopAcc] at hacc
          simp [tokensOf_node] at hacc
          rcases hacc with htl | rfl | htr
          · exact Or.inr (by simp only [loopAcc]; exact htl)
          · exact Or.inl ⟨peekT_mem_of_ne_eof hne, hne⟩
          · exact Or.inl ((ih _ _ _ _ _ h1 t htr).resolve_right (by simp [loopAcc]))
      · cases h
        intro t ht
        exact Or.inr (by simp only [loopAcc]; exact ht)
    | EtermLoop left =>
      simp only [parseNT] at h
      split at h
      · rename_i hg
        have hne : (Parser.peekT ts c).type ≠ TokenType.EOF := by
          rcases hg with hg | hg <;> (rw [hg]; decide)
        obtain ⟨right, c1, h1, h⟩ := pbind_ok h
        intro t ht
        rcases ih _ _ _ _ _ h t ht with hg2 | hacc
        · exact Or.inl hg2
        · simp only [loopAcc] at hacc
          simp [tokensOf_node] at hacc
          rcases hacc with htl | rfl | htr
          · exact Or.inr (by simp only [loopAcc]; exact htl)
          · exact Or.inl ⟨peekT_mem_of_ne_eof hne, hne⟩
          · exact Or.inl ((ih _ _ _ _ _ h1 t htr).resolve_right (by simp [loopAcc]))
      · cases h
        intro t ht
        exact Or.inr (by simp only [loopAcc]; exact ht)

/-! ## Lexer lemmas -/

/-- The position (line, column) the string scanner reaches after consuming
the given characters: a newline adds 2 to the line (the scanner's double
bookkeeping) and resets the column, any other character advances the
column. -/
def string_scan_pos : List Char → Int → Int → Int × Int
  | [], line, column => (line, column)
  | ch :: rest, line, column =>
    if ch = '\n' then string_scan_pos rest (line + 2) 1
    else string_scan_pos rest line (column + 1)

/-- A string body with no closing quote makes `scan_string` fail with
"String não terminada" at the position reached at end of input. -/
theorem scan_string_unterminated : ∀ (s : List Char) (line column : Int),
    (∀ ch ∈ s, ch ≠ '"') →
    scan_string s line column =
      .error ⟨"String não terminada", (string_scan_pos s line column).1,
              (string_scan_pos s line column).2⟩ := by
  intro s
  induction s with
  | nil => intro line column hq; simp [scan_string, string_scan_pos]
  | cons ch rest ih =>
    intro line column hq
    have hch : ch ≠ '"' := hq ch (by simp)
    have hrest : ∀ c ∈ rest, c ≠ '"' := fun c hc => hq c (by simp [hc])
    simp only [scan_string, string_scan_pos, hch, if_false]
    split
    · rw [ih (line + 2) 1 hrest]
    · rw [ih line (column + 1) hrest]

/-- The value a successful association-list lookup returns is one of the
listed values. -/
theorem lookup_val_mem {α β : Type} [BEq α] {l : List (α × β)} {k : α} {v : β}
    (h : l.lookup k = some v) : v ∈ l.map Prod.snd := by
  induction l with
  | nil => simp [List.lookup] at h
  | cons a l ih =>
    obtain ⟨ka, va⟩ := a
    rw [List.lookup] at h
    split at h
    · cases h
      simp
    · simp only [List.map_cons, List.mem_cons]
      exact Or.inr (ih h)

theorem keywords_getD_ne_newline (s : String) :
    (keywords s).getD TokenType.IDENTIFIER ≠ TokenType.NEWLINE := by
  rcases hk : keywords s with _ | tt
  · simp
  · have := lookup_val_mem hk
    revert this
    simp only [Option.getD_some, keyword_list]
    intro hmem hNL
    subst hNL
    revert hmem
    decide

theorem single_char_ne_newline {c : Char} {tt : TokenType}
    (h : single_char_tokens c = some tt) : tt ≠ TokenType.NEWLINE := by
  have := lookup_val_mem h
  revert this
  simp only [single_char_list]
  intro hmem hNL
  subst hNL
  revert hmem
  decide

theorem double_char_ne_newline {s : String} {tt : TokenType}
    (h : double_char_tokens s = some tt) : tt ≠ TokenType.NEWLINE := by
  have := lookup_val_mem h
  revert this
  simp only [double_char_list]
  intro hmem hNL
  subst hNL
  revert hmem
  decide

theorem scan_number_cons_lt {ch : Char} {rest : List Char} {line column : Int}
    (h : ch.isDigit = true) :
    (scan_number (ch :: rest) line column).2.2.2.length < (ch :: rest).length := by
  simp only [scan_number, h, if_pos]
  simpa using Nat.lt_succ_of_le (scan_number_rest_le rest line (column + 1))

theorem scan_identifier_cons_lt {ch : Char} {rest : List Char} {line column : Int}
    (h : ch.isAlphanum = true ∨ ch = '_') :
    (scan_identifier (ch :: rest) line column).2.2.2.length < (ch :: rest).length := by
  simp only [scan_identifier, if_pos h]
  simpa using Nat.lt_succ_of_le (scan_identifier_rest_le rest line (column + 1))

/-- Every `NEWLINE`-typed token the scanning loop ever appends carries the
two-character text `\n` (a backslash followed by the letter n — the Python
source writes the *escaped* string `'\\n'`, not a newline character). -/
theorem tokenize_loop_newline_value (fuel : Nat) : ∀ (src : List Char)
    (line column : Int) (acc res : List Token),
    (∀ t ∈ acc, t.type = TokenType.NEWLINE → t.value = "\\n") →
    tokenize_loop fuel src line column acc = .ok res →
    ∀ t ∈ res, t.type = TokenType.NEWLINE → t.value = "\\n" := by
  induction fuel with
  | zero =>
    intro src line column acc res hacc heq
    simp [tokenize_loop] at heq
  | succ n ih =>
    intro src line column acc res hacc heq
    cases src with
    | nil =>
      simp only [tokenize_loop] at heq
      cases heq
      intro t ht htt
      rcases List.mem_append.mp ht with h | h
      · exact hacc t h htt
      · simp only [List.mem_singleton] at h
        subst h
        simp at htt
    | cons ch rest =>
      simp only [tokenize_loop] at heq
      split at heq
      · -- whitespace
        exact ih rest _ _ _ _ hacc heq
      · split at heq
        · -- newline: appends the NEWLINE token with value "\\n"
          refine ih rest _ _ _ _ ?_ heq
          intro t ht htt
          rcases List.mem_append.mp ht with h | h
          · exact hacc t h htt
          · simp only [List.mem_singleton] at h
            subst h
            rfl
        · split at heq
          · -- comment
            split at heq
            · cases heq
            · exact ih _ _ _ _ _ hacc heq
          · split at heq
            · -- string literal
              split at heq
              · cases heq
              · refine ih _ _ _ _ _ ?_ heq
                intro t ht htt
                rcases List.mem_append.mp ht with h | h
                · exact hacc t h htt
                · simp only [List.mem_singleton] at h
                  subst h
                  simp at htt
            · split at heq
              · -- number
                refine ih _ _ _ _ _ ?_ heq
                intro t ht htt
                rcases List.mem_append.mp ht with h | h
                · exact hacc t h htt
                · simp only [List.mem_singleton] at h
                  subst h
                  simp at htt
              · split at heq
                · -- identifier / keyword
                  refine ih _ _ _ _ _ ?_ heq
                  intro t ht htt
                  rcases List.mem_append.mp ht with h | h
                  · exact hacc t h htt
                  · simp only [List.mem_singleton] at h
                    subst h
                    exact absurd htt (keywords_getD_ne_newline _)
                · -- operators and unknown characters
                  split at heq
                  · split at heq
                    · rename_i c2 rest2 tt hdc
                      refine ih _ _ _ _ _ ?_ heq
                      intro t ht htt
                      rcases List.mem_append.mp ht with h | h
                      · exact hacc t h htt
                      · simp only [List.mem_singleton] at h
                        subst h
                        exact absurd htt (double_char_ne_newline hdc)
                    · split at heq
                      · rename_i c2 rest2 hdc tt hsc
                        refine ih _ _ _ _ _ ?_ heq
                        intro t ht htt
                        rcases List.mem_append.mp ht with h | h
                        · exact hacc t h htt
                        · simp only [List.mem_singleton] at h
                          subst h
                          exact absurd htt (single_char_ne_newline hsc)
                      · cases heq
                  · split at heq
                    · rename_i tt hsc
                      refine ih _ _ _ _ _ ?_ heq
                      intro t ht htt
                      rcases List.mem_append.mp ht with h | h
                      · exact hacc t h htt
                      · simp only [List.mem_singleton] at h
                        subst h
                        exact absurd htt (single_char_ne_newline hsc)
                    · cases heq

/-! ## Claim theorems -/

/-- The example program of the grammar-acceptance property. -/
def c1_source : String := "program p; var x:integer; begin x:=1 end."

/-- The token sequence the lexer produces for `c1_source`. -/
def c1_tokens : List Token :=
  [⟨.PROGRAM, "program", 1, 1⟩, ⟨.IDENTIFIER, "p", 1, 9⟩, ⟨.SEMICOLON, ";", 1, 10⟩,
   ⟨.VAR, "var", 1, 12⟩, ⟨.IDENTIFIER, "x", 1, 16⟩, ⟨.COLON, ":", 1, 17⟩,
   ⟨.INTEGER, "integer", 1, 18⟩, ⟨.SEMICOLON, ";", 1, 25⟩,
   ⟨.BEGIN, "begin", 1, 27⟩, ⟨.IDENTIFIER, "x", 1, 33⟩, ⟨.ASSIGN, ":=", 1, 34⟩,
   ⟨.NUMBER, "1", 1, 36⟩, ⟨.END, "end", 1, 38⟩, ⟨.DOT, ".", 1, 41⟩, ⟨.EOF, "", 1, 42⟩]

/-- The single variable group `x : integer ;` of the example's `var` section. -/
def c1_V : TreeNode :=
  .node "V" none
    [.node "I" none [.node "id" (some ⟨.IDENTIFIER, "x", 1, 16⟩) []],
     .node ":" (some ⟨.COLON, ":", 1, 17⟩) [],
     .node "T" none [.node "integer" (some ⟨.INTEGER, "integer", 1, 18⟩) []],
     .node ";" (some ⟨.SEMICOLON, ";", 1, 25⟩) []]

/-- The `D` subtree (`var` section) of the example's tree. -/
def c1_D : TreeNode :=
  .node "D" none [.node "var" (some ⟨.VAR, "var", 1, 12⟩) [], c1_V]

/-- The command list `x := 1` of the example's tree. -/
def c1_L : TreeNode :=
  .node "L" none
    [.node "C" none
      [.node "A" none
        [.node "id" (some ⟨.IDENTIFIER, "x", 1, 33⟩) [],
         .node ":=" (some ⟨.ASSIGN, ":=", 1, 34⟩) [],
         .node "E" none [.node "num" (some ⟨.NUMBER, "1", 1, 36⟩) []]]]]

/-- The full syntax tree of the example program. -/
def c1_tree : TreeNode :=
  .node "S" none
    [.node "program" (some ⟨.PROGRAM, "program", 1, 1⟩) [],
     .node "id" (some ⟨.IDENTIFIER, "p", 1, 9⟩) [],
     .node ";" (some ⟨.SEMICOLON, ";", 1, 10⟩) [],
     c1_D,
     .node "begin" (some ⟨.BEGIN, "begin", 1, 27⟩) [],
     c1_L,
     .node "end" (some ⟨.END, "end", 1, 38⟩) [],
     .node "." (some ⟨.DOT, ".", 1, 41⟩) []]

/-- C1: the example program lexes to `c1_tokens` and parses to the tree
rooted `S` with children `[program, id, ;, D, begin, L, end, .]` in order,
whose `D` subtree holds exactly one `V` group (its children are
`I : T ;` with no nested `V`) declaring the identifier `x`. -/
theorem C1_grammar_acceptance :
    tokenizeStr c1_source = .ok c1_tokens ∧
    (Parser.parse 200 (Parser.init c1_tokens)).res = some c1_tree ∧
    c1_tree.symbol = "S" ∧
    c1_tree.childSymbols = ["program", "id", ";", "D", "begin", "L", "end", "."] ∧
    c1_D.childSymbols = ["var", "V"] ∧
    c1_V.childSymbols = ["I", ":", "T", ";"] ∧
    (c1_V.children.headD (.node "" none [])).children =
      [.node "id" (some ⟨.IDENTIFIER, "x", 1, 16⟩) []] :=
  ⟨rfl, rfl, rfl, rfl, rfl, rfl, rfl⟩

/-- The expression of the precedence property. -/
def c2_source : String := "2 + 3 * 4"

/-- The token sequence the lexer produces for `c2_source`. -/
def c2_tokens : List Token :=
  [⟨.NUMBER, "2", 1, 1⟩, ⟨.PLUS, "+", 1, 3⟩, ⟨.NUMBER, "3", 1, 5⟩,
   ⟨.MULTIPLY, "*", 1, 7⟩, ⟨.NUMBER, "4", 1, 9⟩, ⟨.EOF, "", 1, 10⟩]

/-- The `*` sub-expression combining 3 and 4. -/
def c2_mul : TreeNode :=
  .node "E" none
    [.node "num" (some ⟨.NUMBER, "3", 1, 5⟩) [],
     .node "*" (some ⟨.MULTIPLY, "*", 1, 7⟩) [],
     .node "num" (some ⟨.NUMBER, "4", 1, 9⟩) []]

/-- The top-level binary operation: `+` with the `*` sub-expression as its
right child. -/
def c2_top : TreeNode :=
  .node "E" none
    [.node "num" (some ⟨.NUMBER, "2", 1, 1⟩) [],
     .node "+" (some ⟨.PLUS, "+", 1, 3⟩) [],
     c2_mul]

/-- The tree `parse_E` returns for `2 + 3 * 4` (the outer `E` wrapper node
that `parse_E_expr` adds around the operation chain). -/
def c2_tree : TreeNode := .node "E" none [c2_top]

/-- C2: parsing the token sequence of `2 + 3 * 4` as an `E` yields the tree
whose top-level binary-operation node carries `+` and whose right child is
the `*` sub-expression of `3` and `4` — multiplication binds tighter, as
witnessed by the tree shape. -/
theorem C2_expression_precedence :
    tokenizeStr c2_source = .ok c2_tokens ∧
    (parse_E 50 (Parser.init c2_tokens) 0).res = some c2_tree ∧
    c2_top.childSymbols = ["num", "+", "E"] ∧
    (c2_top.children.headD (.node "" none [])).tokn = some ⟨.NUMBER, "2", 1, 1⟩ ∧
    c2_top.children.getLast? = some c2_mul ∧
    c2_mul.childSymbols = ["num", "*", "num"] ∧
    (c2_mul.children.map TreeNode.tokn).reduceOption.map Token.value = ["3", "*", "4"] :=
  ⟨rfl, rfl, rfl, rfl, rfl, rfl, rfl⟩

/-- On success, `scan_string` leaves the line counter advanced by exactly
**two** per embedded newline of the scanned literal (`self.line += 1`
followed by `advance()`, which increments again), not one. -/
theorem scan_string_line_count : ∀ (s : List Char) (line column : Int)
    (v : List Char) (l2 c2 : Int) (r : List Char),
    scan_string s line column = .ok (v, l2, c2, r) →
    l2 = line + 2 * (v.count '\n') := by
  intro s
  induction s with
  | nil => intro line column v l2 c2 r h; simp [scan_string] at h
  | cons ch rest ih =>
    intro line column v l2 c2 r h
    simp only [scan_string] at h
    split at h
    · cases h
      simp
    · split at h
      · rename_i hnl
        subst hnl
        cases h3 : scan_string rest (line + 2) 1 with
        | ok x =>
          rw [h3] at h
          obtain ⟨v1, l1, cc1, r1⟩ := x
          cases h
          have := ih _ _ _ _ _ _ h3
          rw [this, List.count_cons_self]
          push_cast
          ring
        | error e => rw [h3] at h; cases h
      · rename_i hnl
        cases h3 : scan_string rest line (column + 1) with
        | ok x =>
          rw [h3] at h
          obtain ⟨v1, l1, cc1, r1⟩ := x
          cases h
          have := ih _ _ _ _ _ _ h3
          rw [this, List.count_cons_of_ne (by simpa using Ne.symm hnl)]
        | error e => rw [h3] at h; cases h

/-- C3 (code bug): scanning a string literal advances the line counter by
**2 per embedded newline**, not 1 — `scan_string` bumps `line` itself and
then `advance()` bumps it again.  First conjunct: the general double-count
formula.  Second conjunct: evaluating the lexer on the failing input
`"a\nb"x` — the literal starts on line 1 and contains one newline, yet the
following token `x` carries line 3 instead of line 2 as the specified
one-increment-per-newline rule would give. -/
theorem C3_string_newline_line_count :
    (∀ (s : List Char) (line column : Int) (v : List Char) (l2 c2 : Int)
       (r : List Char), scan_string s line column = .ok (v, l2, c2, r) →
       l2 = line + 2 * (v.count '\n')) ∧
    tokenizeStr "\"a\nb\"x" =
      .ok [⟨.STRING, "a\nb", 3, 0⟩, ⟨.IDENTIFIER, "x", 3, 3⟩, ⟨.EOF, "", 3, 4⟩] ∧
    (1 : Int) + 2 * 1 = 3 ∧ ¬((3 : Int) = 1 + 1) :=
  ⟨scan_string_line_count, rfl, by norm_num, by norm_num⟩

/-- C4: `Parser.expect` returns (and consumes) the current token when its
kind matches, and otherwise raises a `SyntaxError` whose message names the
expected and found kinds and whose carried token is the found token (hence
reports its kind, value and line). -/
theorem C4_expect_spec (ts : List Token) (c : Nat) (tt : TokenType) :
    ((Parser.peekT ts c).type = tt →
      expect ts c tt = .ok (Parser.peekT ts c) (Parser.advT ts c)) ∧
    ((Parser.peekT ts c).type ≠ tt →
      expect ts c tt = .err ⟨"Esperado '" ++ tt.value ++ "', encontrado '" ++
        (Parser.peekT ts c).type.value ++ "'", some (Parser.peekT ts c)⟩) := by
  constructor <;> intro h <;> simp [expect, h]

/-- Witness for C4 at a concrete token list: a matching `expect` returns the
token, a mismatched one raises the error with the found token attached. -/
theorem C4_expect_spec_witness :
    expect [⟨TokenType.IDENTIFIER, "x", 1, 1⟩] 0 TokenType.IDENTIFIER =
      .ok ⟨TokenType.IDENTIFIER, "x", 1, 1⟩ 0 ∧
    expect [⟨TokenType.IDENTIFIER, "x", 1, 1⟩] 0 TokenType.SEMICOLON =
      .err ⟨"Esperado ';', encontrado 'id'",
            some ⟨TokenType.IDENTIFIER, "x", 1, 1⟩⟩ :=
  ⟨(C4_expect_spec [⟨TokenType.IDENTIFIER, "x", 1, 1⟩] 0 TokenType.IDENTIFIER).1
     (by decide),
   (C4_expect_spec [⟨TokenType.IDENTIFIER, "x", 1, 1⟩] 0 TokenType.SEMICOLON).2
     (by decide)⟩

/-- C5: an opening quote whose remaining input holds no closing quote makes
the scan loop — and hence `Lexer.tokenize` — raise
`LexicalError("String não terminada")` at the line and column reached at end
of input, producing no token list. -/
theorem C5_unterminated_string (s : List Char) :
    (∀ ch ∈ s, ch ≠ '"') →
    (∀ (fuel : Nat) (line column : Int) (acc : List Token),
      tokenize_loop (fuel + 1) ('"' :: s) line column acc =
        .error ⟨"String não terminada", (string_scan_pos s line (column + 1)).1,
                (string_scan_pos s line (column + 1)).2⟩) ∧
    tokenizeStr ⟨'"' :: s⟩ =
      .error ⟨"String não terminada", (string_scan_pos s 1 2).1,
              (string_scan_pos s 1 2).2⟩ := by
  intro hq
  have hloop : ∀ (fuel : Nat) (line column : Int) (acc : List Token),
      tokenize_loop (fuel + 1) ('"' :: s) line column acc =
        .error ⟨"String não terminada", (string_scan_pos s line (column + 1)).1,
                (string_scan_pos s line (column + 1)).2⟩ := by
    intro fuel line column acc
    simp [tokenize_loop, scan_string_unterminated s line (column + 1) hq]
  refine ⟨hloop, ?_⟩
  show tokenize_loop ((String.mk ('"' :: s)).data.length + 1) ('"' :: s) 1 1 [] = _
  rw [show (String.mk ('"' :: s)).data.length + 1 = (s.length + 1) + 1 by simp]
  exact hloop (s.length + 1) 1 1 []

/-- Witness for C5 at the spec's example `"abc`: the lexical error is
raised at line 1, column 5 (end of input). -/
theorem C5_unterminated_string_witness :
    tokenizeStr "\"abc" = .error ⟨"String não terminada", 1, 5⟩ := by
  have h := (C5_unterminated_string ['a', 'b', 'c'] (by decide)).2
  simpa using h

/-- Counterexample to C6 as stated: the token emitted for a newline carries
the two-character text `\n` (backslash, n) — Python's `'\\n'` — not the
one-character newline string. -/
theorem C6_newline_value_counterexample :
    tokenizeStr "\n" = .ok [⟨.NEWLINE, "\\n", 1, -1⟩, ⟨.EOF, "", 2, 1⟩] ∧
    (⟨.NEWLINE, "\\n", 1, -1⟩ : Token).value ≠ "\n" ∧
    "\\n".length = 2 ∧ "\n".length = 1 :=
  ⟨rfl, by decide, by decide, by decide⟩

/-- C6 (amended): every newline encountered between tokens emits one token
of the NEWLINE kind, and every such token's value is the two-character
escape text `\n` (a backslash followed by the letter n). -/
theorem C6_newline_token_text (lx : Lexer) (res : List Token)
    (h : Lexer.tokenize lx = .ok res) :
    ∀ t ∈ res, t.type = TokenType.NEWLINE → t.value = "\\n" :=
  tokenize_loop_newline_value _ _ _ _ _ _ (by simp) h

/-- Witness for the amended C6 on the one-newline source. -/
theorem C6_newline_token_text_witness :
    Token.value ⟨TokenType.NEWLINE, "\\n", 1, -1⟩ = "\\n" :=
  C6_newline_token_text { source := "\n" }
    [⟨.NEWLINE, "\\n", 1, -1⟩, ⟨.EOF, "", 2, 1⟩] (by rfl)
    ⟨.NEWLINE, "\\n", 1, -1⟩ (by decide) rfl

/-- C7: every leaf token of a successfully parsed tree is a token actually
present in the parser's input sequence (and hence in the lexer's output),
and is never the synthesized end marker. -/
theorem C7_leaf_tokens_consumed (raw : List Token) (fuel : Nat)
    (tree : TreeNode) (c' : Nat)
    (h : Parser.parse fuel (Parser.init raw) = .ok tree c') :
    ∀ t ∈ tokensOf tree,
      t ∈ Parser.init raw ∧ t ∈ raw ∧ t.type ≠ TokenType.EOF ∧ t ≠ eof_marker := by
  intro t ht
  simp only [Parser.parse] at h
  obtain ⟨tr, c1, hS, hk⟩ := pbind_ok h
  simp only [parse_S] at hS
  have htr : tr = tree := by
    split at hk
    · cases hk; rfl
    · cases hk
  rw [htr] at hS
  have hleaf := (parseNT_leaves fuel .S (Parser.init raw) 0 tree c1 hS t ht).resolve_right
    (by simp [loopAcc])
  obtain ⟨hmem, hty⟩ := hleaf
  have hmem2 : t ∈ raw.filter fun t =>
      t.type ≠ TokenType.NEWLINE ∧ t.type ≠ TokenType.EOF := by
    unfold Parser.init at hmem
    rcases List.mem_append.mp hmem with h1 | h1
    · exact h1
    · simp only [List.mem_singleton] at h1
      subst h1
      exact absurd rfl hty
  refine ⟨hmem, List.mem_of_mem_filter hmem2, hty, ?_⟩
  intro heq
  subst heq
  exact hty rfl

/-- The lexer's token list for `program p; begin x:=1 end.`. -/
def c7_raw : List Token :=
  [⟨.PROGRAM, "program", 1, 1⟩, ⟨.IDENTIFIER, "p", 1, 9⟩, ⟨.SEMICOLON, ";", 1, 10⟩,
   ⟨.BEGIN, "begin", 1, 12⟩, ⟨.IDENTIFIER, "x", 1, 18⟩, ⟨.ASSIGN, ":=", 1, 19⟩,
   ⟨.NUMBER, "1", 1, 21⟩, ⟨.END, "end", 1, 23⟩, ⟨.DOT, ".", 1, 26⟩, ⟨.EOF, "", 1, 27⟩]

/-- Its syntax tree. -/
def c7_tree : TreeNode :=
  .node "S" none
    [.node "program" (some ⟨.PROGRAM, "program", 1, 1⟩) [],
     .node "id" (some ⟨.IDENTIFIER, "p", 1, 9⟩) [],
     .node ";" (some ⟨.SEMICOLON, ";", 1, 10⟩) [],
     .node "begin" (some ⟨.BEGIN, "begin", 1, 12⟩) [],
     .node "L" none
       [.node "C" none
         [.node "A" none
           [.node "id" (some ⟨.IDENTIFIER, "x", 1, 18⟩) [],
            .node ":=" (some ⟨.ASSIGN, ":=", 1, 19⟩) [],
            .node "E" none [.node "num" (some ⟨.NUMBER, "1", 1, 21⟩) []]]]],
     .node "end" (some ⟨.END, "end", 1, 23⟩) [],
     .node "." (some ⟨.DOT, ".", 1, 26⟩) []]

/-- Witness for C7: the leaf `x` of the parsed example comes from the input. -/
theorem C7_leaf_tokens_consumed_witness :
    (⟨TokenType.IDENTIFIER, "x", 1, 18⟩ : Token) ∈ c7_raw ∧
    (⟨TokenType.IDENTIFIER, "x", 1, 18⟩ : Token).type ≠ TokenType.EOF := by
  have h := C7_leaf_tokens_consumed c7_raw 100 c7_tree 9 rfl
    ⟨.IDENTIFIER, "x", 1, 18⟩ (by simp [c7_tree, tokensOf_node])
  exact ⟨h.2.1, h.2.2.1⟩

/-- The full pipeline on a `Lexer` instance: tokenize, then parse the
filtered token list. -/
def analyze (lx : Lexer) (fuel : Nat) : Except LexicalError (PRes TreeNode) :=
  match Lexer.tokenize lx with
  | .error e => .error e
  | .ok raw => .ok (Parser.parse fuel (Parser.init raw))

/-- C8 (determinism): the result of tokenizing — and of the whole
lexing+parsing pipeline — depends only on the `source` string.  In
particular any two `Lexer` instances over the same source, including one
whose `tokens`/`current`/`line`/`column` fields still hold the mutated
state of an earlier `tokenize` run, produce structurally identical token
sequences and trees. -/
theorem C8_determinism (lx lx2 : Lexer) (h : lx.source = lx2.source) :
    Lexer.tokenize lx = Lexer.tokenize lx2 ∧
    ∀ fuel : Nat, analyze lx fuel = analyze lx2 fuel := by
  have ht : Lexer.tokenize lx = Lexer.tokenize lx2 := by
    unfold Lexer.tokenize
    rw [h]
  exact ⟨ht, fun fuel => by unfold analyze; rw [ht]⟩

/-- Witness for C8: a fresh instance and a stale instance (non-default
`tokens`, `current`, `line`, `column`) over the same source tokenize
identically. -/
theorem C8_determinism_witness :
    Lexer.tokenize { source := "x:=1" } =
      Lexer.tokenize { source := "x:=1", tokens := [⟨TokenType.EOF, "", 9, 9⟩],
                       current := 42, line := 7, column := 3 } ∧
    analyze { source := "x:=1" } 50 =
      analyze { source := "x:=1", tokens := [⟨TokenType.EOF, "", 9, 9⟩],
                current := 42, line := 7, column := 3 } 50 :=
  ⟨(C8_determinism _ _ rfl).1, (C8_determinism _ _ rfl).2 50⟩

/-- C9 (termination): for every source the lexer accepts, the parser run on
the filtered token list completes — with any fuel beyond the linear bound
`8·(tokens)+1` the descent never exhausts its fuel, so the unfueled Python
recursion returns a tree or raises after finitely many steps — and the
cursor never moves past the end marker. -/
theorem C9_termination (src : String) (raw : List Token)
    (_htok : tokenizeStr src = .ok raw) (fuel : Nat)
    (hfuel : 8 * (Parser.init raw).length + 1 ≤ fuel) :
    Parser.parse fuel (Parser.init raw) ≠ PRes.out ∧
    ∀ (tree : TreeNode) (c' : Nat),
      Parser.parse fuel (Parser.init raw) = .ok tree c' →
      c' ≤ (Parser.init raw).length - 1 := by
  have hE := endsEOF_init raw
  have hlen := init_length_pos raw
  constructor
  · simp only [Parser.parse]
    refine pbind_ne_out ?_ fun tree c1 hS => ?_
    · simp only [parse_S]
      refine parseNT_suff fuel .S (Parser.init raw) 0 hE hlen ?_
      simp only [rank]
      omega
    · dsimp only
      split <;> simp
  · intro tree c' h
    simp only [Parser.parse] at h
    obtain ⟨tr, c1, hS, hk⟩ := pbind_ok h
    simp only [parse_S] at hS
    have hcur := (parseNT_cursor fuel .S (Parser.init raw) 0 tr c1 hS).2 hlen
    split at hk
    · cases hk
      omega
    · cases hk

/-- Witness for C9 on the example program (10 parser tokens, bound 81). -/
theorem C9_termination_witness :
    Parser.parse 81 (Parser.init c7_raw) ≠ PRes.out :=
  (C9_termination "program p; begin x:=1 end." c7_raw rfl 81 (by decide)).1

theorem peekT_append_last (pre : List Token) (t : Token) (c : Nat)
    (hc : (pre ++ [t]).length - 1 ≤ c) : Parser.peekT (pre ++ [t]) c = t := by
  unfold Parser.peekT
  split
  · rename_i hlt
    have hce : c = pre.length := by
      simp only [List.length_append, List.length_singleton] at hlt hc
      omega
    subst hce
    exact get_append_last pre t _
  · rw [List.getLastD_eq_getLast?, List.getLast?_append]
    simp

/-- C10: `Parser.__init__` always appends the synthetic end marker
`Token(EOF, '$', -1, -1)`; whenever a terminal is required at or past the
end of the real input, the raised `SyntaxError` carries this synthetic
token, so the rendered diagnostic reports kind `EOF` and line `-1`. -/
theorem C10_synthetic_end_marker (raw : List Token) :
    Parser.init raw =
      (raw.filter fun t =>
        t.type ≠ TokenType.NEWLINE ∧ t.type ≠ TokenType.EOF) ++ [eof_marker] ∧
    eof_marker = ⟨TokenType.EOF, "$", -1, -1⟩ ∧
    ∀ (c : Nat) (tt : TokenType), (Parser.init raw).length - 1 ≤ c →
      tt ≠ TokenType.EOF →
      Parser.peekT (Parser.init raw) c = eof_marker ∧
      expect (Parser.init raw) c tt =
        .err ⟨"Esperado '" ++ tt.value ++ "', encontrado '" ++
              TokenType.value TokenType.EOF ++ "'", some eof_marker⟩ ∧
      SyntaxError.render
        ⟨"Esperado '" ++ tt.value ++ "', encontrado '" ++
          TokenType.value TokenType.EOF ++ "'", some eof_marker⟩ =
        "Erro sintático: " ++
          ("Esperado '" ++ tt.value ++ "', encontrado '" ++
            TokenType.value TokenType.EOF ++ "'") ++
          " (Token: " ++ "EOF" ++ ", Linha: " ++ "-1" ++ ")" := by
  refine ⟨rfl, rfl, ?_⟩
  intro c tt hc htt
  have hpeek : Parser.peekT (Parser.init raw) c = eof_marker :=
    peekT_append_last _ _ _ hc
  refine ⟨hpeek, ?_, ?_⟩
  · simp only [expect, hpeek]
    rw [if_neg (by simpa [eof_marker] using Ne.symm htt)]
    rfl
  · rfl

/-- Witness for C10 on the empty token list, expecting a `;`: the error
carries the synthetic token and renders kind EOF and line -1. -/
theorem C10_synthetic_end_marker_witness :
    Parser.init [] = [eof_marker] ∧
    expect (Parser.init []) 0 TokenType.SEMICOLON =
      .err ⟨"Esperado ';', encontrado 'EOF'", some eof_marker⟩ ∧
    SyntaxError.render ⟨"Esperado ';', encontrado 'EOF'", some eof_marker⟩ =
      "Erro sintático: Esperado ';', encontrado 'EOF' (Token: EOF, Linha: -1)" := by
  have h := C10_synthetic_end_marker []
  have h2 := h.2.2 0 TokenType.SEMICOLON (by decide) (by decide)
  exact ⟨h.1, h2.2.1, h2.2.2⟩
